import Mathlib

/-!
Verification of the yosys-ivy proof orchestrator core: a shallow embedding of
the status lattice, the persistent status store, the status dependency graph
and its propagation loop, the scheduler's dispatch bucketing, and the
hierarchical-name db-key encoding, together with theorems about the
properties the documentation states for them.
-/

namespace Ivy

/-! ## Status lattice (data.py) -/

/-- Closed set of task/proof statuses, as in data.py. -/
inductive Status where
  | unreachable
  | abandoned
  | error
  | fail
  | unknown
  | pending
  | scheduled
  | running
  | pass
  deriving DecidableEq, Repr, Inhabited

/-- Embeds data.py `status_list`: the order used for the lattice. -/
def status_list : List Status :=
  [.unreachable, .abandoned, .error, .fail, .unknown, .pending, .scheduled, .running, .pass]

/-- Embeds data.py `status_index`: position of each status in `status_list`. -/
def status_index : Status → Nat
  | .unreachable => 0
  | .abandoned => 1
  | .error => 2
  | .fail => 3
  | .unknown => 4
  | .pending => 5
  | .scheduled => 6
  | .running => 7
  | .pass => 8

/-- Lattice order on statuses: comparison of `status_index`. -/
def statusLe (a b : Status) : Bool := status_index a ≤ status_index b

/-- Recover a status from its index (total, defaulting like the list lookup). -/
def statusOfIndex (i : Nat) : Status := status_list.getD i .pass

/-- Embeds data.py `status_and`: minimum in the status order, `pass` for the
empty collection (python `min(..., default=len(status_list)-1)`). -/
def status_and (status : List Status) : Status :=
  statusOfIndex (status.foldr (fun s m => Nat.min (status_index s) m) (status_list.length - 1))

/-- Embeds data.py `status_or`: maximum in the status order, `unreachable` for
the empty collection (python `max(..., default=0)`). -/
def status_or (status : List Status) : Status :=
  statusOfIndex (status.foldr (fun s m => Nat.max (status_index s) m) 0)

/-- Embeds data.py `status_or_equivalent`: `fail` dominates, else `status_or`. -/
def status_or_equivalent (status : List Status) : Status :=
  if Status.fail ∈ status then .fail else status_or status

/-! ## Persistent status store (status_db.py)

The sqlite table `proof_status (name, solver, status)` with primary key
`(name, solver)` is modelled as an association list from task names to
statuses; sqlite row update/select become list operations. -/

/-- A task name: an entity name (tuple of parts) plus a solver string,
as in data.py `IvyTaskName`. -/
structure IvyTaskName where
  name : List String
  solver : String
  deriving DecidableEq, Repr

/-- The `proof_status` table: rows keyed by task name. Primary-key uniqueness
means at most one row per task name in well-formed tables. -/
abbrev Table := List (IvyTaskName × Status)

/-- SELECT status FROM proof_status WHERE name = ... AND solver = ... -/
def tableGet (t : Table) (k : IvyTaskName) : Option Status :=
  match t with
  | [] => none
  | (k0, s0) :: rest => if k0 = k then some s0 else tableGet rest k

/-- UPDATE proof_status SET status = ... WHERE name = ... AND solver = ... -/
def tableSet (t : Table) (k : IvyTaskName) (s : Status) : Table :=
  match t with
  | [] => []
  | (k0, s0) :: rest =>
    if k0 = k then (k0, s) :: tableSet rest k s else (k0, s0) :: tableSet rest k s

/-- Python dict assignment `results[task_name] = old_status`: overwrite in
place when present, append otherwise. -/
def dictSet (d : List (IvyTaskName × Status)) (k : IvyTaskName) (s : Status) :
    List (IvyTaskName × Status) :=
  match d with
  | [] => [(k, s)]
  | (k0, s0) :: rest =>
    if k0 = k then (k0, s) :: rest else (k0, s0) :: dictSet rest k s

/-- Python `results.get(name, None)`. -/
def dictGet (d : List (IvyTaskName × Status)) (k : IvyTaskName) : Option Status :=
  match d with
  | [] => none
  | (k0, s0) :: rest => if k0 = k then some s0 else dictGet rest k

/-- Embeds status_db.py `IvyStatusDb.change_status_many`: for each listed task
read the current status; when a require set is given and the current status is
not in it, record the current status in the result dict; otherwise update the
row to the new status.  `none` models the `TypeError` that `fetchone()[0]`
raises when a task has no row. -/
def change_status_many (names : List IvyTaskName) (new_status : Status)
    (require : Option (List Status)) (t : Table) :
    Option (Table × List (IvyTaskName × Status)) :=
  match names with
  | [] => some (t, [])
  | task_name :: rest =>
    match tableGet t task_name with
    | none => none
    | some old_status =>
      match require with
      | some req =>
        if old_status ∈ req then
          match change_status_many rest new_status require (tableSet t task_name new_status) with
          | none => none
          | some (t2, results) => some (t2, results)
        else
          match change_status_many rest new_status require t with
          | none => none
          | some (t2, results) => some (t2, dictSet results task_name old_status)
      | none =>
        match change_status_many rest new_status require (tableSet t task_name new_status) with
        | none => none
        | some (t2, results) => some (t2, results)

/-- Embeds status_db.py `IvyStatusDb.change_status`:
`change_status_many([name], ...).get(name, None)`. -/
def change_status (name : IvyTaskName) (new_status : Status)
    (require : Option (List Status)) (t : Table) : Option (Table × Option Status) :=
  match change_status_many [name] new_status require t with
  | none => none
  | some (t2, results) => some (t2, dictGet results name)

/-- Embeds status_db.py `IvyStatusDb.initialize_status`: bulk INSERT of rows
with status 'pending'. -/
def initialize_status (names : List IvyTaskName) (t : Table) : Table :=
  t ++ names.map (fun task_name => (task_name, Status.pending))

/-! ### Store lemmas -/

theorem tableGet_tableSet_self (t : Table) (k : IvyTaskName) (s : Status) :
    tableGet (tableSet t k s) k = (tableGet t k).map (fun _ => s) := by
  induction t with
  | nil => rfl
  | cons hd rest ih =>
    obtain ⟨k0, s0⟩ := hd
    by_cases h : k0 = k <;> simp [tableGet, tableSet, h, ih]

theorem tableGet_tableSet_other (t : Table) (k k' : IvyTaskName) (s : Status)
    (h : k' ≠ k) : tableGet (tableSet t k s) k' = tableGet t k' := by
  induction t with
  | nil => rfl
  | cons hd rest ih =>
    obtain ⟨k0, s0⟩ := hd
    by_cases h0 : k0 = k
    · subst h0
      simp [tableGet, tableSet, Ne.symm h, ih]
    · by_cases h1 : k0 = k' <;> simp [tableGet, tableSet, h0, h1, ih, h]

theorem dictGet_dictSet_self (d : List (IvyTaskName × Status)) (k : IvyTaskName) (s : Status) :
    dictGet (dictSet d k s) k = some s := by
  induction d with
  | nil => simp [dictSet, dictGet]
  | cons hd rest ih =>
    obtain ⟨k0, s0⟩ := hd
    by_cases h : k0 = k <;> simp [dictGet, dictSet, h, ih]

theorem dictGet_dictSet_other (d : List (IvyTaskName × Status)) (k k' : IvyTaskName)
    (s : Status) (h : k' ≠ k) : dictGet (dictSet d k s) k' = dictGet d k' := by
  induction d with
  | nil => simp [dictSet, dictGet, Ne.symm h]
  | cons hd rest ih =>
    obtain ⟨k0, s0⟩ := hd
    by_cases h0 : k0 = k
    · subst h0
      simp [dictGet, dictSet, Ne.symm h, ih]
    · by_cases h1 : k0 = k' <;> simp [dictGet, dictSet, h0, h1, ih, h]

/-- Behaviour of `change_status_many` on a batch of distinct task names that
all have rows: the final table updates exactly the tasks whose current status
is in the require set, and the result dict reports exactly the others. -/
theorem change_status_many_spec (names : List IvyTaskName) (new_status : Status)
    (req : List Status) (t : Table)
    (hnodup : names.Nodup)
    (hrows : ∀ tk ∈ names, (tableGet t tk).isSome) :
    ∃ t2 results, change_status_many names new_status (some req) t = some (t2, results) ∧
      (∀ tk ∈ names, ∀ cur, tableGet t tk = some cur →
        (cur ∈ req → tableGet t2 tk = some new_status ∧ dictGet results tk = none) ∧
        (cur ∉ req → tableGet t2 tk = some cur ∧ dictGet results tk = some cur)) ∧
      (∀ tk, tk ∉ names → tableGet t2 tk = tableGet t tk ∧ dictGet results tk = none) := by
  induction names generalizing t with
  | nil =>
    refine ⟨t, [], rfl, ?_, ?_⟩
    · intro tk h
      simp at h
    · intro tk _
      exact ⟨rfl, rfl⟩
  | cons hd rest ih =>
    have hhd : (tableGet t hd).isSome := hrows hd (by simp)
    obtain ⟨cur, hcur⟩ : ∃ cur, tableGet t hd = some cur := by
      cases h : tableGet t hd with
      | none => rw [h] at hhd; simp at hhd
      | some s => exact ⟨s, rfl⟩
    have hnd := List.nodup_cons.mp hnodup
    by_cases hmem : cur ∈ req
    · have hrows2 : ∀ tk ∈ rest, (tableGet (tableSet t hd new_status) tk).isSome := by
        intro tk htk
        by_cases he : tk = hd
        · subst he
          rw [tableGet_tableSet_self, hcur]
          simp
        · rw [tableGet_tableSet_other t hd tk new_status he]
          exact hrows tk (by simp [htk])
      obtain ⟨t2, results, heq, hin, hout⟩ := ih (tableSet t hd new_status) hnd.2 hrows2
      refine ⟨t2, results, ?_, ?_, ?_⟩
      · simp only [change_status_many, hcur, hmem, if_pos, heq]
      · intro tk htk cur2 hcur2
        rcases List.mem_cons.mp htk with he | hr
        · subst he
          rw [hcur] at hcur2
          injection hcur2 with hcc
          subst hcc
          obtain ⟨ht2, hres⟩ := hout tk hnd.1
          constructor
          · intro _
            refine ⟨?_, hres⟩
            rw [ht2, tableGet_tableSet_self, hcur]
            rfl
          · intro hcon
            exact absurd hmem hcon
        · have hget : tableGet (tableSet t hd new_status) tk = some cur2 := by
            have hne : tk ≠ hd := fun he => hnd.1 (he ▸ hr)
            rw [tableGet_tableSet_other t hd tk new_status hne]
            exact hcur2
          exact hin tk hr cur2 hget
      · intro tk htk
        have hne : tk ≠ hd := fun he => htk (by simp [he])
        have hnr : tk ∉ rest := fun hr => htk (by simp [hr])
        obtain ⟨ht2, hres⟩ := hout tk hnr
        refine ⟨?_, hres⟩
        rw [ht2, tableGet_tableSet_other t hd tk new_status hne]
    · obtain ⟨t2, results, heq, hin, hout⟩ := ih t hnd.2
        (fun tk htk => hrows tk (by simp [htk]))
      refine ⟨t2, dictSet results hd cur, ?_, ?_, ?_⟩
      · simp only [change_status_many, hcur, hmem, if_neg, heq, not_false_iff]
      · intro tk htk cur2 hcur2
        rcases List.mem_cons.mp htk with he | hr
        · subst he
          rw [hcur] at hcur2
          injection hcur2 with hcc
          subst hcc
          obtain ⟨ht2, _⟩ := hout tk hnd.1
          constructor
          · intro hcon
            exact absurd hcon hmem
          · intro _
            rw [ht2, hcur, dictGet_dictSet_self]
            exact ⟨rfl, rfl⟩
        · have hne : tk ≠ hd := fun he => hnd.1 (he ▸ hr)
          have hthis := hin tk hr cur2 hcur2
          constructor
          · intro hm
            obtain ⟨h1, h2⟩ := hthis.1 hm
            exact ⟨h1, by rw [dictGet_dictSet_other results hd tk cur hne]; exact h2⟩
          · intro hm
            obtain ⟨h1, h2⟩ := hthis.2 hm
            exact ⟨h1, by rw [dictGet_dictSet_other results hd tk cur hne]; exact h2⟩
      · intro tk htk
        have hne : tk ≠ hd := fun he => htk (by simp [he])
        have hnr : tk ∉ rest := fun hr => htk (by simp [hr])
        obtain ⟨ht2, hres⟩ := hout tk hnr
        exact ⟨ht2, by rw [dictGet_dictSet_other results hd tk cur hne]; exact hres⟩

/-- C5. Require semantics of `change_status`: for a task that has a row,
`change_status(t, s, R)` writes `s` and returns nothing when the stored status
is in `R`; otherwise it leaves the table unchanged and returns the stored
status.  `change_status_many` acts the same way per task on a batch of
distinct tasks, reporting the mismatching tasks without aborting the rest. -/
theorem c5_change_status_require (tk : IvyTaskName) (s : Status) (req : List Status)
    (t : Table) (cur : Status) (hcur : tableGet t tk = some cur) :
    ((cur ∈ req → change_status tk s (some req) t = some (tableSet t tk s, none)) ∧
     (cur ∉ req → change_status tk s (some req) t = some (t, some cur))) ∧
    (∀ names : List IvyTaskName, names.Nodup → (∀ n ∈ names, (tableGet t n).isSome) →
      ∃ t2 results, change_status_many names s (some req) t = some (t2, results) ∧
        (∀ n ∈ names, ∀ c, tableGet t n = some c →
          (c ∈ req → tableGet t2 n = some s ∧ dictGet results n = none) ∧
          (c ∉ req → tableGet t2 n = some c ∧ dictGet results n = some c)) ∧
        (∀ n, n ∉ names → tableGet t2 n = tableGet t n ∧ dictGet results n = none)) := by
  constructor
  · constructor
    · intro hmem
      simp [change_status, change_status_many, hcur, hmem, dictGet]
    · intro hmem
      simp [change_status, change_status_many, hcur, hmem, dictGet, dictSet]
  · intro names hnodup hrows
    exact change_status_many_spec names s req t hnodup hrows

/-- Witness for C5 at a concrete store. -/
theorem c5_change_status_require_witness :
    change_status ⟨["top", "p"], "smt"⟩ .running (some [.pending, .running])
        [(⟨["top", "p"], "smt"⟩, .pending)] =
      some (tableSet [(⟨["top", "p"], "smt"⟩, .pending)] ⟨["top", "p"], "smt"⟩ .running,
        none) := by
  have h := c5_change_status_require ⟨["top", "p"], "smt"⟩ .running
    [.pending, .running] [(⟨["top", "p"], "smt"⟩, .pending)] .pending (by rfl)
  exact h.1.1 (by decide)

/-! ## Transaction wrapper (status_db.py `transaction`)

The sqlite connection is modelled by explicit state passing: a method body is
a function from the attempt number (0 = first run, 1 = the single retry in
immediate mode) and the committed table to either a contention error
(`sqlite3.OperationalError`), some other exception, or a new table plus a
return value.  `begin`/`commit`/`rollback` become: a successful body's table
is installed, a failing body's table changes are discarded. -/

/-- Exception classes distinguished by the wrapper. -/
inductive PyErr where
  | operational
  | other
  deriving DecidableEq, Repr

/-- Embeds the status_db.py `transaction` decorator: run the body in a
transaction; on `OperationalError` roll back and retry exactly once in
immediate mode; on any other exception roll back and re-raise; a failure of
the retry is always re-raised. -/
def transaction {α : Type} (body : Nat → Table → Except PyErr (Table × α))
    (db : Table) : Except PyErr (Table × α) :=
  match body 0 db with
  | .ok r => .ok r
  | .error .operational =>
    match body 1 db with
    | .ok r => .ok r
    | .error e => .error e
  | .error .other => .error .other

/-- C9. Transaction retry: a method succeeding on first attempt commits once;
with a contention fault on the first attempt and success on the second, the
method succeeds and the committed table is exactly the successful body's
table (one observable write, the first attempt having been rolled back); on a
non-contention exception the transaction rolls back and propagates the
exception without consulting the retry attempt at all. -/
theorem c9_transaction_retry {α : Type} (body : Nat → Table → Except PyErr (Table × α))
    (db db2 : Table) (a : α) :
    (body 0 db = .ok (db2, a) → transaction body db = .ok (db2, a)) ∧
    (body 0 db = .error .operational → body 1 db = .ok (db2, a) →
      transaction body db = .ok (db2, a)) ∧
    (body 0 db = .error .other →
      ∀ body2 : Nat → Table → Except PyErr (Table × α), body2 0 db = body 0 db →
        transaction body2 db = .error .other) := by
  refine ⟨?_, ?_, ?_⟩
  · intro h
    simp [transaction, h]
  · intro h0 h1
    simp [transaction, h0, h1]
  · intro h0 body2 heq
    simp [transaction, heq, h0]

/-- Witness for C9 with a concrete contention schedule. -/
theorem c9_transaction_retry_witness :
    (fun (n : Nat) (t : Table) =>
        if n = 0 then (Except.error PyErr.operational : Except PyErr (Table × Nat))
        else .ok (initialize_status [⟨["top"], "smt"⟩] t, 7)) 0 [] =
      .error .operational ∧
    transaction (fun (n : Nat) (t : Table) =>
        if n = 0 then (Except.error PyErr.operational : Except PyErr (Table × Nat))
        else .ok (initialize_status [⟨["top"], "smt"⟩] t, 7)) [] =
      .ok (initialize_status [⟨["top"], "smt"⟩] [], 7) := by
  refine ⟨rfl, ?_⟩
  exact (c9_transaction_retry
    (fun (n : Nat) (t : Table) =>
      if n = 0 then (Except.error PyErr.operational : Except PyErr (Table × Nat))
      else .ok (initialize_status [⟨["top"], "smt"⟩] t, 7))
    [] (initialize_status [⟨["top"], "smt"⟩] []) 7).2.1 rfl rfl

/-! ## Proof status event handling (main.py `proof_event_handler`) -/

/-- Embeds solver/__init__.py `ProofStatusEvent`. -/
structure ProofStatusEvent where
  name : IvyTaskName
  status : Status
  deriving DecidableEq, Repr

/-- Embeds main.py `proof_event_handler`: choose the require set from the
event status (`("scheduled",)` for a running event, `("running",)`
otherwise), persist through `change_status`, and report a require mismatch as
a non-fatal error (the returned flag; `log_error` is called with
`raise_error=False`).  `none` models the row-missing `TypeError`. -/
def proof_event_handler (event : ProofStatusEvent) (t : Table) : Option (Table × Bool) :=
  let require : List Status := if event.status = .running then [.scheduled] else [.running]
  match change_status event.name event.status (some require) t with
  | none => none
  | some (t2, failure) => some (t2, failure.isSome)

/-- C8 counterexample: for a task currently stored as `pending`, an
`abandoned` event does not persist `abandoned` (the handler's require set is
`{running}`, which rejects `pending`), whereas the require set
`{pending, scheduled, running}` stated by the claim would have written it. -/
theorem c8_event_require_counterexample :
    proof_event_handler ⟨⟨["top", "p"], "smt"⟩, .abandoned⟩
        [(⟨["top", "p"], "smt"⟩, .pending)] =
      some ([(⟨["top", "p"], "smt"⟩, .pending)], true) ∧
    change_status ⟨["top", "p"], "smt"⟩ .abandoned
        (some [.pending, .scheduled, .running]) [(⟨["top", "p"], "smt"⟩, .pending)] =
      some ([(⟨["top", "p"], "smt"⟩, .abandoned)], none) := by
  exact ⟨rfl, rfl⟩

/-- C8 amended: the proof status event handler persists a `running` event with
require set `{scheduled}` and every other event status — `pending` and
`abandoned` included — with require set `{running}`; on a require mismatch the
store is left unchanged and the handler reports a non-fatal error instead of
raising. -/
theorem c8_event_require_sets (t : Table) (tk : IvyTaskName) (st cur : Status)
    (hcur : tableGet t tk = some cur) :
    (st = .running →
      (cur = .scheduled → proof_event_handler ⟨tk, st⟩ t = some (tableSet t tk st, false)) ∧
      (cur ≠ .scheduled → proof_event_handler ⟨tk, st⟩ t = some (t, true))) ∧
    (st ≠ .running →
      (cur = .running → proof_event_handler ⟨tk, st⟩ t = some (tableSet t tk st, false)) ∧
      (cur ≠ .running → proof_event_handler ⟨tk, st⟩ t = some (t, true))) := by
  have hspec := (c5_change_status_require tk st [.scheduled] t cur hcur).1
  have hspec2 := (c5_change_status_require tk st [.running] t cur hcur).1
  constructor
  · intro hrun
    subst hrun
    constructor
    · intro hc
      have h1 := hspec.1 (by simp [hc])
      simp [proof_event_handler, h1]
    · intro hc
      have h1 := hspec.2 (by simp [hc])
      simp [proof_event_handler, h1]
  · intro hrun
    constructor
    · intro hc
      have h1 := hspec2.1 (by simp [hc])
      simp [proof_event_handler, hrun, h1]
    · intro hc
      have h1 := hspec2.2 (by simp [hc])
      simp [proof_event_handler, hrun, h1]

/-- Witness for the amended C8 at a concrete store and event. -/
theorem c8_event_require_sets_witness :
    proof_event_handler ⟨⟨["top", "q"], "smt"⟩, .pass⟩
        [(⟨["top", "q"], "smt"⟩, .running)] =
      some (tableSet [(⟨["top", "q"], "smt"⟩, .running)] ⟨["top", "q"], "smt"⟩ .pass,
        false) :=
  ((c8_event_require_sets [(⟨["top", "q"], "smt"⟩, .running)] ⟨["top", "q"], "smt"⟩
    .pass .running (by rfl)).2 (by decide)).1 rfl

/-! ## C3: broken round trip of the status store

status_db.py `full_status` reads every row and rebuilds the task name with
`IvyName.from_db_key(data, name)` — but data.py defines
`from_db_key(cls, key)` with a single parameter, so the call passes one
positional argument too many and raises `TypeError` as soon as the table has
a row.  The store layer itself does fill the table correctly, which the next
theorem records. -/

/-- Every task passed to `initialize_status` on a fresh store has a `pending`
row afterwards, and no other rows exist (the SQL layer of the round trip). -/
theorem c3_initialize_pending (names : List IvyTaskName) (tk : IvyTaskName) :
    (tk ∈ names → tableGet (initialize_status names []) tk = some .pending) ∧
    (tk ∉ names → tableGet (initialize_status names []) tk = none) := by
  have key : ∀ l : List IvyTaskName,
      (tk ∈ l → tableGet (l.map (fun n => (n, Status.pending))) tk = some .pending) ∧
      (tk ∉ l → tableGet (l.map (fun n => (n, Status.pending))) tk = none) := by
    intro l
    induction l with
    | nil => simp [tableGet]
    | cons hd rest ih =>
      by_cases h : hd = tk
      · subst h
        simp [tableGet]
      · constructor
        · intro hm
          rcases List.mem_cons.mp hm with he | hr
          · exact absurd he.symm h
          · simpa [tableGet, h] using ih.1 hr
        · intro hm
          have : tk ∉ rest := fun hr => hm (by simp [hr])
          simpa [tableGet, h] using ih.2 this
  simpa [initialize_status] using key names

/-- Witness for the C3 store-layer theorem at a concrete task set. -/
theorem c3_initialize_pending_witness :
    tableGet (initialize_status [⟨["top", "a"], "smt"⟩, ⟨["top", "b"], "smt"⟩] [])
      ⟨["top", "b"], "smt"⟩ = some .pending :=
  (c3_initialize_pending [⟨["top", "a"], "smt"⟩, ⟨["top", "b"], "smt"⟩]
    ⟨["top", "b"], "smt"⟩).1 (by decide)

/-! ## Entity model and status-graph edge generation (data.py) -/

/-- Hierarchical entity name: the tuple of parts of an `IvyName`. -/
abbrev IvyName := List String

/-- Embeds data.py `StatusType`; `export` is a Lean keyword, hence `export_`. -/
inductive StatusType where
  | task
  | proof
  | assume_proof
  | entity
  | cross
  | export_
  deriving DecidableEq, Repr

/-- Embeds data.py `StatusKey`. -/
structure StatusKey where
  type : StatusType
  name : IvyName
  deriving DecidableEq, Repr

/-- Embeds data.py `StatusEdge`. -/
structure StatusEdge where
  source : StatusKey
  target : StatusKey
  deriving DecidableEq, Repr

/-- An `IvyUse` proof item (`export` flag renamed as for `StatusType`). -/
structure IvyUse where
  name : IvyName
  export_ : Bool
  deriving DecidableEq, Repr

/-- An `IvyAssume` proof item. -/
structure IvyAssume where
  name : IvyName
  cross : Bool
  deriving DecidableEq, Repr

/-- An `IvyAssert` proof item (`local` is a Lean keyword, hence `local_`). -/
structure IvyAssert where
  name : IvyName
  local_ : Bool
  deriving DecidableEq, Repr

/-- An `IvyExport` proof item. -/
structure IvyExport where
  name : IvyName
  cross : Bool
  deriving DecidableEq, Repr

/-- The fields of data.py `IvyProof` that edge generation reads. -/
structure IvyProof where
  name : IvyName
  solve : Bool
  uses : List IvyUse
  assumes : List IvyAssume
  asserts : List IvyAssert
  exports : List IvyExport
  deriving DecidableEq, Repr

/-- Embeds data.py `IvyProof.graph_edges`, yield for yield: the task and
assume edges are produced only under `self.solve and self.asserts`, use
edges under their own guards, assert edges again under
`self.solve and self.asserts`, then the unconditional
`assume_proof → entity` edge and the export edges. -/
def IvyProof.graph_edges (p : IvyProof) : List StatusEdge :=
  (if p.solve ∧ p.asserts ≠ [] then
    StatusEdge.mk ⟨.task, p.name⟩ ⟨.proof, p.name⟩ ::
      p.assumes.map (fun a =>
        StatusEdge.mk ⟨if a.cross then .cross else .entity, a.name⟩ ⟨.proof, p.name⟩)
  else []) ++
  (p.uses.flatMap (fun u =>
    (if p.solve then [StatusEdge.mk ⟨.export_, u.name⟩ ⟨.proof, p.name⟩] else []) ++
    (if u.export_ then [StatusEdge.mk ⟨.export_, u.name⟩ ⟨.export_, p.name⟩] else []))) ++
  (if p.solve ∧ p.asserts ≠ [] then
    p.asserts.flatMap (fun x =>
      (if ¬x.local_ then [StatusEdge.mk ⟨.entity, x.name⟩ ⟨.assume_proof, p.name⟩] else []) ++
      [StatusEdge.mk ⟨.proof, p.name⟩ ⟨.entity, x.name⟩])
  else []) ++
  [StatusEdge.mk ⟨.assume_proof, p.name⟩ ⟨.entity, p.name⟩] ++
  p.exports.map (fun e =>
    StatusEdge.mk ⟨if e.cross then .cross else .entity, e.name⟩ ⟨.export_, p.name⟩)

/-- Embeds data.py `IvyProof.graph_sinks`. -/
def IvyProof.graph_sinks (p : IvyProof) : List StatusKey :=
  if p.solve ∧ p.asserts ≠ [] then
    StatusKey.mk .proof p.name :: p.asserts.map (fun x => StatusKey.mk .entity x.name)
  else []

/-- C6 counterexample: a proof with `solve = false` and an assume item
generates no assume edge at all — the assume edges sit under the
`self.solve and self.asserts` guard, so the claim's unconditional statement
fails. -/
theorem c6_assume_edge_counterexample :
    StatusEdge.mk ⟨.entity, ["top", "i0"]⟩ ⟨.proof, ["top", "p0"]⟩ ∉
      IvyProof.graph_edges
        ⟨["top", "p0"], false, [], [⟨["top", "i0"], false⟩], [⟨["top", "i1"], false⟩], []⟩ := by
  decide

/-- C6 amended: for every proof with `solve` set and a non-empty assert list,
each assume item `A` produces the edge
`(cross if A.cross else entity)(A.name) → proof(P)`. -/
theorem c6_assume_edges (p : IvyProof) (a : IvyAssume)
    (hsolve : p.solve = true) (hasserts : p.asserts ≠ []) (ha : a ∈ p.assumes) :
    StatusEdge.mk ⟨if a.cross then .cross else .entity, a.name⟩ ⟨.proof, p.name⟩ ∈
      p.graph_edges := by
  unfold IvyProof.graph_edges
  rw [if_pos ⟨hsolve, hasserts⟩]
  apply List.mem_append_left
  apply List.mem_append_left
  apply List.mem_append_left
  apply List.mem_append_left
  apply List.mem_cons_of_mem
  exact List.mem_map_of_mem _ ha

/-- Witness for the amended C6 at a concrete proof. -/
theorem c6_assume_edges_witness :
    StatusEdge.mk ⟨.cross, ["top", "i0"]⟩ ⟨.proof, ["top", "p1"]⟩ ∈
      IvyProof.graph_edges
        ⟨["top", "p1"], true, [], [⟨["top", "i0"], true⟩], [⟨["top", "i1"], true⟩], []⟩ :=
  c6_assume_edges
    ⟨["top", "p1"], true, [], [⟨["top", "i0"], true⟩], [⟨["top", "i1"], true⟩], []⟩
    ⟨["top", "i0"], true⟩ rfl (by decide) (by decide)

/-! ## Scheduler dispatch bucketing (solver/__init__.py `Solvers.dispatch_proof_task`) -/

/-- Association-list get over any key type. -/
def alGet {α β : Type} [DecidableEq α] (l : List (α × β)) (k : α) : Option β :=
  match l with
  | [] => none
  | (k0, v0) :: rest => if k0 = k then some v0 else alGet rest k

/-- Association-list get with default (python `defaultdict` read). -/
def alGetD {α β : Type} [DecidableEq α] (l : List (α × β)) (k : α) (d : β) : β :=
  (alGet l k).getD d

/-- Association-list set: python dict assignment (update in place when the
key is present, append otherwise). -/
def alSet {α β : Type} [DecidableEq α] (l : List (α × β)) (k : α) (v : β) : List (α × β) :=
  match l with
  | [] => [(k, v)]
  | (k0, v0) :: rest => if k0 = k then (k0, v) :: rest else (k0, v0) :: alSet rest k v

/-- `StableSet.add`: append when absent. -/
def stableAdd {α : Type} [DecidableEq α] (l : List α) (x : α) : List α :=
  if x ∈ l then l else l ++ [x]

/-- Embeds the python expression `self.entity.solve_with[task_name.solver] or 0`
that resolves a task's priority (`None` and `0` are falsy). -/
def solver_priority (p : Option Int) : Int :=
  match p with
  | none => 0
  | some v => if v = 0 then 0 else v

/-- The scheduler's per-entity dispatch bookkeeping, tasks and sentinels
identified by freshly allocated numbers; `depends_on` lists the
`a.depends_on(b)` pairs created. -/
structure SchedState where
  positive_priority_tasks : List (IvyName × List Nat)
  negative_priority_tasks : List (IvyName × List Nat)
  tasks : List (IvyName × List Nat)
  priority_sentinels : List (IvyName × Nat)
  depends_on : List (Nat × Nat)
  next_id : Nat
  deriving DecidableEq, Repr

/-- Embeds solver/__init__.py `Solvers.dispatch_proof_task` for a task whose
resolved priority is `priority`: register in `tasks[name]`; a strictly
positive priority goes to the positive set (creating or reusing the sentinel
when negative tasks exist), a strictly negative priority to the negative set
(dually); priority zero matches neither branch. -/
def dispatch_proof_task (st : SchedState) (n : IvyName) (priority : Int) :
    SchedState × Nat :=
  let task := st.next_id
  let st1 := { st with
    next_id := st.next_id + 1,
    tasks := alSet st.tasks n (stableAdd (alGetD st.tasks n []) task) }
  if priority > 0 then
    let negs := alGetD st1.negative_priority_tasks n []
    let st2 :=
      if negs ≠ [] then
        let stS :=
          if alGetD st1.positive_priority_tasks n [] ≠ [] then
            (st1, alGetD st1.priority_sentinels n 0)
          else
            let sentinel := st1.next_id
            ({ st1 with
                next_id := st1.next_id + 1,
                priority_sentinels := alSet st1.priority_sentinels n sentinel,
                depends_on := st1.depends_on ++ negs.map (fun t => (t, sentinel)) },
              sentinel)
        { stS.1 with depends_on := stS.1.depends_on ++ [(stS.2, task)] }
      else st1
    ({ st2 with
        positive_priority_tasks :=
          alSet st2.positive_priority_tasks n
            (stableAdd (alGetD st2.positive_priority_tasks n []) task) },
      task)
  else if priority < 0 then
    let poss := alGetD st1.positive_priority_tasks n []
    let st2 :=
      if poss ≠ [] then
        let stS :=
          if alGetD st1.negative_priority_tasks n [] ≠ [] then
            (st1, alGetD st1.priority_sentinels n 0)
          else
            let sentinel := st1.next_id
            ({ st1 with
                next_id := st1.next_id + 1,
                priority_sentinels := alSet st1.priority_sentinels n sentinel,
                depends_on := st1.depends_on ++ poss.map (fun t => (sentinel, t)) },
              sentinel)
        { stS.1 with depends_on := stS.1.depends_on ++ [(task, stS.2)] }
      else st1
    ({ st2 with
        negative_priority_tasks :=
          alSet st2.negative_priority_tasks n
            (stableAdd (alGetD st2.negative_priority_tasks n []) task) },
      task)
  else
    (st1, task)

/-- C7 counterexample: with a positive-priority task already dispatched for
the entity, dispatching a task of resolved priority zero leaves the
negative-priority set empty and creates no dependency — contrary to the
claim that it lands in the negative set and is ordered after the positive
tasks. -/
theorem c7_priority_zero_counterexample :
    ((dispatch_proof_task
        (dispatch_proof_task ⟨[], [], [], [], [], 0⟩ ["top", "p"] 1).1
        ["top", "p"] 0).1.negative_priority_tasks = [] ∧
     (dispatch_proof_task
        (dispatch_proof_task ⟨[], [], [], [], [], 0⟩ ["top", "p"] 1).1
        ["top", "p"] 0).1.depends_on = []) := by
  decide

/-- C7 amended: a dispatched task whose resolved priority is zero is placed
in neither the positive- nor the negative-priority set; no sentinel and no
dependency edge is created for it, so it is not ordered after the
positive-priority tasks of its entity — it is only registered in the
all-tasks set. -/
theorem c7_priority_zero_neither_bucket (st : SchedState) (n : IvyName)
    (sw : Option Int) (h : solver_priority sw = 0) :
    (dispatch_proof_task st n (solver_priority sw)).1 =
      { st with
        next_id := st.next_id + 1,
        tasks := alSet st.tasks n (stableAdd (alGetD st.tasks n []) st.next_id) } ∧
    (dispatch_proof_task st n (solver_priority sw)).1.positive_priority_tasks =
      st.positive_priority_tasks ∧
    (dispatch_proof_task st n (solver_priority sw)).1.negative_priority_tasks =
      st.negative_priority_tasks ∧
    (dispatch_proof_task st n (solver_priority sw)).1.priority_sentinels =
      st.priority_sentinels ∧
    (dispatch_proof_task st n (solver_priority sw)).1.depends_on = st.depends_on := by
  rw [h]
  exact ⟨rfl, rfl, rfl, rfl, rfl⟩

/-- Witness for the amended C7 at a concrete scheduler state. -/
theorem c7_priority_zero_neither_bucket_witness :
    (dispatch_proof_task ⟨[(["top", "p"], [0])], [], [(["top", "p"], [0])], [], [], 1⟩
        ["top", "p"] (solver_priority (some 0))).1.negative_priority_tasks = [] :=
  (c7_priority_zero_neither_bucket
    ⟨[(["top", "p"], [0])], [], [(["top", "p"], [0])], [], [], 1⟩
    ["top", "p"] (some 0) rfl).2.2.1

/-! ## SCC finder (sccs.py `find_sccs`)

The iterative Tarjan loop is embedded as a step function on an explicit
machine state, driven by fuel; python's DFS list, node stack and `low` dict
become a cons-list stack (head = python list end), a cons-list stack and an
association list. -/

/-- Python defaultdict/dict touch for a missing key: append an entry with the
given default, keep the list unchanged otherwise. -/
def alTouch {α β : Type} [DecidableEq α] (l : List (α × β)) (k : α) (d : β) : List (α × β) :=
  if (alGet l k).isSome then l else l ++ [(k, d)]

/-- State of the iterative Tarjan machine of sccs.py. -/
structure TarjanState (T : Type) where
  components : List (List T)
  low : List (T × Nat)
  dfs : List (T × Option (List T) × Nat)
  stack : List T

/-- Pop the node stack down to (and including) `node`, as in the
`while stack:` loop closing a component; returns the component in pop order
and the remaining stack. -/
def popComponent {T : Type} [DecidableEq T] (node : T) : List T → List T × List T
  | [] => ([], [])
  | x :: rest =>
    if x = node then ([x], rest)
    else
      let p := popComponent node rest
      (x :: p.1, p.2)

/-- The part of a Tarjan iteration after the iterator of `node`'s edges is in
hand: either descend into the next edge, or (on `StopIteration`) close the
node, taking the minimum of the `low` values of its edges and emitting a
component when `num == val`. -/
def tarjanFinish {T : Type} [DecidableEq T] (nodes : List (T × List T))
    (node : T) (edges : List T) (num : Nat)
    (dfsRest : List (T × Option (List T) × Nat)) (low : List (T × Nat))
    (stack : List T) (components : List (List T)) : TarjanState T :=
  match edges with
  | next_edge :: restEdges =>
    ⟨components, low,
      (next_edge, none, low.length) :: (node, some restEdges, num) :: dfsRest, stack⟩
  | [] =>
    let val := (alGetD nodes node []).foldl
      (fun v e =>
        match alGet low e with
        | some le => Nat.min v le
        | none => v)
      (alGetD low node 0)
    let low2 := alSet low node val
    if num = val then
      let p := popComponent node stack
      let low3 := p.1.foldl (fun lo x => alSet lo x nodes.length) low2
      ⟨components ++ [p.1], low3, dfsRest, p.2⟩
    else ⟨components, low2, dfsRest, stack⟩

/-- One iteration of the `while dfs:` loop of sccs.py. -/
def tarjanStep {T : Type} [DecidableEq T] (nodes : List (T × List T))
    (st : TarjanState T) : TarjanState T :=
  match st.dfs with
  | [] => st
  | (node, node_edges, num) :: dfsRest =>
    match node_edges with
    | none =>
      if (alGet st.low node).isSome then
        ⟨st.components, st.low, dfsRest, st.stack⟩
      else
        let low2 := alSet st.low node num
        let stack2 := node :: st.stack
        tarjanFinish nodes node (alGetD nodes node []) num dfsRest low2 stack2 st.components
    | some edges =>
      tarjanFinish nodes node edges num dfsRest st.low st.stack st.components

/-- Run the inner `while dfs:` loop to completion, fuel-bounded. -/
def tarjanRun {T : Type} [DecidableEq T] (nodes : List (T × List T)) :
    Nat → TarjanState T → Option (TarjanState T)
  | 0, st => if st.dfs = [] then some st else none
  | fuel + 1, st =>
    match st.dfs with
    | [] => some st
    | _ => tarjanRun nodes fuel (tarjanStep nodes st)

/-- The outer `for start in nodes:` loop of sccs.py. -/
def sccOuter {T : Type} [DecidableEq T] (nodes : List (T × List T)) (fuel : Nat) :
    List T → TarjanState T → Option (TarjanState T)
  | [], st => some st
  | start :: rest, st =>
    if (alGet st.low start).isSome then sccOuter nodes fuel rest st
    else
      match tarjanRun nodes fuel ⟨st.components, st.low, [(start, none, st.low.length)], st.stack⟩ with
      | none => none
      | some st2 => sccOuter nodes fuel rest st2

/-- Embeds sccs.py `find_sccs` (fuel-bounded; `none` only on fuel
exhaustion). -/
def find_sccs {T : Type} [DecidableEq T] (fuel : Nat) (nodes : List (T × List T)) :
    Option (List (List T)) :=
  (sccOuter nodes fuel (nodes.map Prod.fst) ⟨[], [], [], []⟩).map TarjanState.components

/-! ## Status graph construction (data.py `IvyStatusGraph`) -/

/-- An entity: a proof, or an invariant (which only contributes the base
`IvyEntity.graph_edges`/`graph_sinks` behaviour guarded by `solve`). -/
inductive IvyEntity where
  | proofE (p : IvyProof)
  | invariantE (name : IvyName) (solve : Bool)
  deriving DecidableEq, Repr

/-- Embeds `IvyEntity.graph_edges` / `IvyProof.graph_edges`. -/
def IvyEntity.graph_edges : IvyEntity → List StatusEdge
  | .proofE p => p.graph_edges
  | .invariantE n solve =>
    if solve then [StatusEdge.mk ⟨.task, n⟩ ⟨.entity, n⟩] else []

/-- Embeds `IvyEntity.graph_sinks` / `IvyProof.graph_sinks`. -/
def IvyEntity.graph_sinks : IvyEntity → List StatusKey
  | .proofE p => p.graph_sinks
  | .invariantE n solve => if solve then [StatusKey.mk .entity n] else []

/-- Intermediate edge maps of the `IvyStatusGraph` constructor. -/
structure EdgeMaps where
  out_edges : List (StatusKey × List StatusEdge)
  in_edges : List (StatusKey × List StatusEdge)
  sinks : List StatusKey

/-- `self.out_edges[edge.source].add(edge)` on a `defaultdict(StableSet)`. -/
def addEdgeTo (m : List (StatusKey × List StatusEdge)) (k : StatusKey) (e : StatusEdge) :
    List (StatusKey × List StatusEdge) :=
  alSet (alTouch m k []) k (stableAdd (alGetD m k []) e)

/-- The first loop of `IvyStatusGraph.__init__`: collect sinks and edges from
all entities, creating empty edge sets for every endpoint. -/
def buildMaps (entities : List IvyEntity) : EdgeMaps :=
  entities.foldl
    (fun m e =>
      let m1 := e.graph_sinks.foldl
        (fun m sink =>
          { m with
            in_edges := alTouch m.in_edges sink [],
            out_edges := alTouch m.out_edges sink [],
            sinks := stableAdd m.sinks sink })
        m
      e.graph_edges.foldl
        (fun m edge =>
          { m with
            out_edges := alTouch (addEdgeTo m.out_edges edge.source edge) edge.target [],
            in_edges := alTouch (addEdgeTo m.in_edges edge.target edge) edge.source [] })
        m1)
    ⟨[], [], []⟩

/-- Insertion into a sorted list of naturals. -/
def insertSorted (x : Nat) : List Nat → List Nat
  | [] => [x]
  | y :: rest => if x ≤ y then x :: y :: rest else y :: insertSorted x rest

/-- Python `sorted` on a list of naturals. -/
def sortNat (l : List Nat) : List Nat := l.foldr insertSorted []

/-- The arena form of the status graph: vertices are topological ranks, with
the precomputed arrays of `IvyStatusGraph`. -/
structure SGraph where
  order_list : List StatusKey
  order : List (StatusKey × Nat)
  out_edges_list : List (List Nat)
  in_edges_list : List (List Nat)
  cross_order_map : List (Option Nat)
  cross_order_inv_map : List (Option Nat)
  non_entity_sources : List StatusKey
  tasks : List StatusKey
  sinks : List StatusKey
  deriving DecidableEq, Repr

/-- Embeds `IvyStatusGraph.__init__`: edge collection, SCC-based rank
assignment over the reversed graph, and the precomputed index arrays. -/
def buildGraph (fuel : Nat) (entities : List IvyEntity) : Option SGraph :=
  let m := buildMaps entities
  let adjacency := m.in_edges.map (fun kv => (kv.1, kv.2.map StatusEdge.source))
  match find_sccs fuel adjacency with
  | none => none
  | some sccs =>
    let order_list := sccs.foldl (fun acc scc => acc ++ scc) []
    let order := order_list.enum.map (fun p => (p.2, p.1))
    let non_entity_sources := (m.in_edges.filter
      (fun kv => kv.1.type ≠ .entity ∧ kv.1.type ≠ .task ∧ kv.2 = [])).map Prod.fst
    let tasks := (m.in_edges.filter (fun kv => kv.1.type = .task)).map Prod.fst
    some
      { order_list := order_list
        order := order
        out_edges_list := order_list.map (fun source =>
          sortNat ((alGetD m.out_edges source []).map (fun e => alGetD order e.target 0)))
        in_edges_list := order_list.map (fun target =>
          sortNat ((alGetD m.in_edges target []).map (fun e => alGetD order e.source 0)))
        cross_order_map := order_list.map (fun key =>
          if key.type = .entity then alGet order ⟨.cross, key.name⟩ else none)
        cross_order_inv_map := order_list.map (fun key =>
          if key.type = .cross then alGet order ⟨.entity, key.name⟩ else none)
        non_entity_sources := non_entity_sources
        tasks := tasks
        sinks := m.sinks }

/-! ## Status map (data.py `IvyStatusMap`) -/

/-- The mutable state of `IvyStatusMap`: parallel arrays indexed by rank,
with the dirty min-heap kept as a sorted duplicate-free list. -/
structure SMap where
  current_status : List Status
  dirty : List Bool
  dirty_queue : List Nat
  cross_dirty : List Bool
  cross_dirty_list : List Nat
  deriving DecidableEq, Repr

/-- `IvyStatusMap._push_dirty`. -/
def pushDirty (s : SMap) (j : Nat) : SMap :=
  { s with dirty := s.dirty.set j true, dirty_queue := insertSorted j s.dirty_queue }

/-- The `for out_edge in ...: if not dirty: push` loop of `_set_status`. -/
def pushTargets (s : SMap) (l : List Nat) : SMap :=
  l.foldl (fun s j => if s.dirty.getD j false then s else pushDirty s j) s

/-- Embeds `IvyStatusMap._set_status`: no-op on an unchanged value; otherwise
mark the vertex cross-dirty when it has a cross partner, store the value and
enqueue the not-yet-dirty out-neighbours. -/
def setStatusIdx (g : SGraph) (s : SMap) (index : Nat) (status : Status) : SMap :=
  if s.current_status.getD index .unreachable = status then s
  else
    let s1 :=
      match g.cross_order_map.getD index none with
      | some _ =>
        if s.cross_dirty.getD index false then s
        else
          { s with
            cross_dirty := s.cross_dirty.set index true,
            cross_dirty_list := s.cross_dirty_list ++ [index] }
      | none => s
    let s2 := { s1 with current_status := s1.current_status.set index status }
    pushTargets s2 (g.out_edges_list.getD index [])

/-- Embeds `IvyStatusMap.set_status` (key-level). -/
def setStatus (g : SGraph) (s : SMap) (key : StatusKey) (v : Status) : SMap :=
  match alGet g.order key with
  | some i => setStatusIdx g s i v
  | none => s

/-- One pop of the dirty queue in `IvyStatusMap.iterate`: recompute the
popped vertex by `status_or` for entity vertices and `status_and` otherwise,
then `_set_status`. -/
def popStep (g : SGraph) (s : SMap) : SMap :=
  match s.dirty_queue with
  | [] => s
  | index :: rest =>
    let s1 := { s with dirty_queue := rest, dirty := s.dirty.set index false }
    let key := g.order_list.getD index ⟨.task, []⟩
    let ins := (g.in_edges_list.getD index []).map
      (fun j => s1.current_status.getD j .unreachable)
    let status := if key.type = .entity then status_or ins else status_and ins
    setStatusIdx g s1 index status

/-- The inner `while self.dirty_queue:` loop, fuel-bounded. -/
def iterateInner (g : SGraph) : Nat → SMap → SMap
  | 0, s => s
  | fuel + 1, s =>
    match s.dirty_queue with
    | [] => s
    | _ :: _ => iterateInner g fuel (popStep g s)

/-- One entry of the cross flush loop: clear the flag and copy the entity's
status onto its cross vertex. -/
def flushOne (g : SGraph) (s : SMap) (index : Nat) : SMap :=
  let s1 := { s with cross_dirty := s.cross_dirty.set index false }
  match g.cross_order_map.getD index none with
  | some cross => setStatusIdx g s1 cross (s1.current_status.getD index .unreachable)
  | none => s1

/-- Embeds `IvyStatusMap.iterate`: alternate the inner dirty loop and the
cross flush until both the queue and the cross-dirty list are empty.  Both
loops are fuel-bounded; a state returned with a non-empty dirty queue or a
non-empty cross-dirty list means fuel ran out, not completion. -/
def iterate (g : SGraph) : Nat → Nat → SMap → SMap
  | 0, _, s => s
  | fo + 1, fi, s =>
    if s.dirty_queue = [] ∧ s.cross_dirty_list = [] then s
    else
      let s1 := iterateInner g fi s
      if s1.dirty_queue = [] then
        let l := s1.cross_dirty_list
        iterate g fo fi (l.foldl (flushOne g) { s1 with cross_dirty_list := [] })
      else s1

/-- Embeds `IvyStatusMap.__init__`: everything `unreachable`, then the
non-entity sources to `pass` and the task vertices to `pending`. -/
def initMap (g : SGraph) : SMap :=
  let n := g.order_list.length
  let s : SMap := ⟨List.replicate n .unreachable, List.replicate n false, [],
    List.replicate n false, []⟩
  let s1 := g.non_entity_sources.foldl (fun s key => setStatus g s key .pass) s
  g.tasks.foldl (fun s key => setStatus g s key .pending) s1

/-- The task-seeding loop of main.py `run_status_task`: write the store
valuation onto every task vertex. -/
def setTaskStatuses (g : SGraph) (sigma : StatusKey → Status) (s : SMap) : SMap :=
  g.tasks.foldl (fun s key => setStatus g s key (sigma key)) s

/-- Read a vertex status by key, as `IvyStatusMap.status`. -/
def mapStatus (g : SGraph) (s : SMap) (key : StatusKey) : Status :=
  s.current_status.getD (alGetD g.order key 0) .unreachable

/-! ## Concrete refutation data for the propagation claims

Proof `P` solves and asserts invariant `A` (locally), proof `Q` solves,
asserts invariant `B` (locally) and cross-assumes `A`; the invariants are
unsolved.  This puts both an `entity` and a `cross` vertex for `A` into the
graph, where `entity(A)`'s only in-edge comes from `proof(P)`. -/

/-- The proof `P` of the refutation data. -/
def ex1P : IvyProof := ⟨["P"], true, [], [], [⟨["A"], true⟩], []⟩

/-- The proof `Q` of the refutation data. -/
def ex1Q : IvyProof := ⟨["Q"], true, [], [⟨["A"], true⟩], [⟨["B"], true⟩], []⟩

/-- The refutation entity list (proofs before invariants, as `IvyData`
materializes them). -/
def ex1Entities : List IvyEntity :=
  [.proofE ex1P, .proofE ex1Q, .invariantE ["A"] false, .invariantE ["B"] false]

/-- A store valuation giving `task(P)` the bottom status `unreachable`. -/
def ex1SigmaLow : StatusKey → Status :=
  fun k => if k.name = ["P"] then .unreachable else .pending

/-- A pointwise larger store valuation giving `task(P)` status `abandoned`. -/
def ex1SigmaHigh : StatusKey → Status :=
  fun k => if k.name = ["P"] then .abandoned else .pending

/-- The status graph the `IvyStatusGraph` constructor builds from the
refutation entities (the fuel of 100 is ample; the accompanying theorems
check that construction really succeeded). -/
def ex1G : SGraph :=
  (buildGraph 100 ex1Entities).getD ⟨[], [], [], [], [], [], [], [], []⟩

/-- The completed run of `iterate()` from the low valuation. -/
def ex1RunLow : SMap :=
  iterate ex1G 10 100 (setTaskStatuses ex1G ex1SigmaLow (initMap ex1G))

/-- The completed run of `iterate()` from the high valuation. -/
def ex1RunHigh : SMap :=
  iterate ex1G 10 100 (setTaskStatuses ex1G ex1SigmaHigh (initMap ex1G))

/-- C2 counterexample: on the refutation graph with `task(P)` seeded to
`unreachable`, `iterate()` returns (both queues empty) with
`μ[cross(A)] = pass` but `μ[entity(A)] = unreachable` — `proof(P)` never
changes status, so `entity(A)` is never recomputed and `cross(A)` keeps the
`pass` it received as a source at initialization. -/
theorem c2_cross_deferral_counterexample :
    (buildGraph 100 ex1Entities).isSome = true ∧
    ex1RunLow.dirty_queue = [] ∧ ex1RunLow.cross_dirty_list = [] ∧
    (alGet ex1G.order ⟨.cross, ["A"]⟩).isSome = true ∧
    (alGet ex1G.order ⟨.entity, ["A"]⟩).isSome = true ∧
    mapStatus ex1G ex1RunLow ⟨.cross, ["A"]⟩ = .pass ∧
    mapStatus ex1G ex1RunLow ⟨.entity, ["A"]⟩ = .unreachable := by
  decide

/-- C1 counterexample: the two valuations compare pointwise on the task
vertices (`unreachable ≤ abandoned`), both runs of `iterate()` complete, yet
the resulting maps violate monotonicity at `cross(A)`: the lower run keeps
`pass` there while the higher run propagates `abandoned`. -/
theorem c1_monotonicity_counterexample :
    (buildGraph 100 ex1Entities).isSome = true ∧
    (ex1G.tasks.all fun k => statusLe (ex1SigmaLow k) (ex1SigmaHigh k)) = true ∧
    ex1RunLow.dirty_queue = [] ∧ ex1RunLow.cross_dirty_list = [] ∧
    ex1RunHigh.dirty_queue = [] ∧ ex1RunHigh.cross_dirty_list = [] ∧
    mapStatus ex1G ex1RunLow ⟨.cross, ["A"]⟩ = .pass ∧
    mapStatus ex1G ex1RunHigh ⟨.cross, ["A"]⟩ = .abandoned ∧
    statusLe (mapStatus ex1G ex1RunLow ⟨.cross, ["A"]⟩)
      (mapStatus ex1G ex1RunHigh ⟨.cross, ["A"]⟩) = false := by
  decide

/-! ## Invariants of the propagation loop -/

/-- Status of a vertex rank in a map state. -/
def statusAt (s : SMap) (i : Nat) : Status := s.current_status.getD i .unreachable

/-- Cross-dirty flag of a vertex rank. -/
def flagAt (s : SMap) (i : Nat) : Bool := s.cross_dirty.getD i false

/-- Vertex type by rank. -/
def typeOf (g : SGraph) (j : Nat) : StatusType := (g.order_list.getD j ⟨.task, []⟩).type

theorem getD_set_self {α : Type} {l : List α} {i : Nat} {v d : α} (h : i < l.length) :
    (l.set i v).getD i d = v := by
  induction l generalizing i with
  | nil => simp at h
  | cons hd tl ih =>
    cases i with
    | zero => rfl
    | succ j => exact ih (Nat.lt_of_succ_lt_succ h)

theorem getD_set_other {α : Type} {l : List α} {i j : Nat} {v d : α} (h : j ≠ i) :
    (l.set i v).getD j d = l.getD j d := by
  induction l generalizing i j with
  | nil => rfl
  | cons hd tl ih =>
    cases i with
    | zero =>
      cases j with
      | zero => exact absurd rfl h
      | succ j2 => rfl
    | succ i2 =>
      cases j with
      | zero => rfl
      | succ j2 => exact ih (fun he => h (by rw [he]))

theorem mem_insertSorted {x y : Nat} {l : List Nat} :
    x ∈ insertSorted y l ↔ x = y ∨ x ∈ l := by
  induction l with
  | nil => simp [insertSorted]
  | cons hd tl ih =>
    by_cases h : y ≤ hd
    · simp [insertSorted, h]
    · simp only [insertSorted, if_neg h, List.mem_cons, ih]
      tauto

theorem pushTargets_cons (s : SMap) (a : Nat) (l : List Nat) :
    pushTargets s (a :: l) =
      pushTargets (if s.dirty.getD a false then s else pushDirty s a) l := rfl

theorem pushTargets_current (s : SMap) (l : List Nat) :
    (pushTargets s l).current_status = s.current_status := by
  induction l generalizing s with
  | nil => rfl
  | cons a l ih =>
    rw [pushTargets_cons, ih]
    split <;> rfl

theorem pushTargets_cross_dirty (s : SMap) (l : List Nat) :
    (pushTargets s l).cross_dirty = s.cross_dirty := by
  induction l generalizing s with
  | nil => rfl
  | cons a l ih =>
    rw [pushTargets_cons, ih]
    split <;> rfl

theorem pushTargets_cross_list (s : SMap) (l : List Nat) :
    (pushTargets s l).cross_dirty_list = s.cross_dirty_list := by
  induction l generalizing s with
  | nil => rfl
  | cons a l ih =>
    rw [pushTargets_cons, ih]
    split <;> rfl

theorem pushTargets_dirty_length (s : SMap) (l : List Nat) :
    (pushTargets s l).dirty.length = s.dirty.length := by
  induction l generalizing s with
  | nil => rfl
  | cons a l ih =>
    rw [pushTargets_cons, ih]
    split
    · rfl
    · simp [pushDirty]

theorem pushTargets_queue_mem {s : SMap} {l : List Nat} {j : Nat}
    (h : j ∈ (pushTargets s l).dirty_queue) : j ∈ s.dirty_queue ∨ j ∈ l := by
  induction l generalizing s with
  | nil => exact Or.inl h
  | cons a l ih =>
    rw [pushTargets_cons] at h
    by_cases ha : s.dirty.getD a false
    · rw [if_pos ha] at h
      rcases ih h with h1 | h1
      · exact Or.inl h1
      · exact Or.inr (by simp [h1])
    · rw [if_neg ha] at h
      rcases ih h with h1 | h1
      · rcases mem_insertSorted.mp h1 with h2 | h2
        · exact Or.inr (by simp [h2])
        · exact Or.inl h2
      · exact Or.inr (by simp [h1])

/-- `_set_status` with the currently stored value is a no-op. -/
theorem setStatusIdx_eq_of_eq {g : SGraph} {s : SMap} {i : Nat} {v : Status}
    (h : statusAt s i = v) : setStatusIdx g s i v = s := by
  unfold setStatusIdx
  rw [if_pos (show s.current_status.getD i .unreachable = v from h)]

/-- Auxiliary description of the intermediate state of `_set_status` before
the status write (the cross-dirty marking step). -/
def markState (g : SGraph) (s : SMap) (i : Nat) : SMap :=
  match g.cross_order_map.getD i none with
  | some _ =>
    if s.cross_dirty.getD i false then s
    else
      { s with
        cross_dirty := s.cross_dirty.set i true,
        cross_dirty_list := s.cross_dirty_list ++ [i] }
  | none => s

theorem setStatusIdx_eq_of_ne {g : SGraph} {s : SMap} {i : Nat} {v : Status}
    (h : statusAt s i ≠ v) :
    setStatusIdx g s i v =
      pushTargets
        { markState g s i with current_status := (markState g s i).current_status.set i v }
        (g.out_edges_list.getD i []) := by
  unfold setStatusIdx markState
  rw [if_neg (show ¬s.current_status.getD i .unreachable = v from h)]

theorem markState_current (g : SGraph) (s : SMap) (i : Nat) :
    (markState g s i).current_status = s.current_status := by
  unfold markState
  cases g.cross_order_map.getD i none with
  | none => rfl
  | some c =>
    by_cases hf : s.cross_dirty.getD i false = true
    · rw [if_pos hf]
    · rw [if_neg hf]

theorem markState_queue (g : SGraph) (s : SMap) (i : Nat) :
    (markState g s i).dirty_queue = s.dirty_queue := by
  unfold markState
  cases g.cross_order_map.getD i none with
  | none => rfl
  | some c =>
    by_cases hf : s.cross_dirty.getD i false = true
    · rw [if_pos hf]
    · rw [if_neg hf]

theorem markState_dirty (g : SGraph) (s : SMap) (i : Nat) :
    (markState g s i).dirty = s.dirty := by
  unfold markState
  cases g.cross_order_map.getD i none with
  | none => rfl
  | some c =>
    by_cases hf : s.cross_dirty.getD i false = true
    · rw [if_pos hf]
    · rw [if_neg hf]

theorem setStatusIdx_statusAt {g : SGraph} {s : SMap} {i : Nat} {v : Status}
    (hlen : i < s.current_status.length) (j : Nat) :
    statusAt (setStatusIdx g s i v) j = if j = i then v else statusAt s j := by
  by_cases h : statusAt s i = v
  · rw [setStatusIdx_eq_of_eq h]
    by_cases hj : j = i
    · rw [if_pos hj, hj, h]
    · rw [if_neg hj]
  · rw [setStatusIdx_eq_of_ne h]
    unfold statusAt
    rw [pushTargets_current]
    simp only [markState_current]
    by_cases hj : j = i
    · subst hj
      rw [if_pos rfl]
      exact getD_set_self (by simpa [markState_current] using hlen)
    · rw [if_neg hj]
      exact getD_set_other hj

theorem setStatusIdx_statusAt_length {g : SGraph} {s : SMap} {i : Nat} {v : Status} :
    (setStatusIdx g s i v).current_status.length = s.current_status.length := by
  by_cases h : statusAt s i = v
  · rw [setStatusIdx_eq_of_eq h]
  · rw [setStatusIdx_eq_of_ne h]
    rw [pushTargets_current]
    simp [markState_current]

theorem setStatusIdx_cross_length {g : SGraph} {s : SMap} {i : Nat} {v : Status} :
    (setStatusIdx g s i v).cross_dirty.length = s.cross_dirty.length := by
  by_cases h : statusAt s i = v
  · rw [setStatusIdx_eq_of_eq h]
  · rw [setStatusIdx_eq_of_ne h]
    rw [pushTargets_cross_dirty]
    show (markState g s i).cross_dirty.length = s.cross_dirty.length
    unfold markState
    cases g.cross_order_map.getD i none with
    | none => rfl
    | some c =>
      by_cases hf : s.cross_dirty.getD i false = true
      · rw [if_pos hf]
      · rw [if_neg hf]
        simp

theorem setStatusIdx_dirty_length {g : SGraph} {s : SMap} {i : Nat} {v : Status} :
    (setStatusIdx g s i v).dirty.length = s.dirty.length := by
  by_cases h : statusAt s i = v
  · rw [setStatusIdx_eq_of_eq h]
  · rw [setStatusIdx_eq_of_ne h]
    rw [pushTargets_dirty_length]
    show (markState g s i).dirty.length = s.dirty.length
    rw [markState_dirty]

theorem setStatusIdx_flagAt_other {g : SGraph} {s : SMap} {i : Nat} {v : Status}
    {j : Nat} (hj : j ≠ i) : flagAt (setStatusIdx g s i v) j = flagAt s j := by
  by_cases h : statusAt s i = v
  · rw [setStatusIdx_eq_of_eq h]
  · rw [setStatusIdx_eq_of_ne h]
    unfold flagAt
    rw [pushTargets_cross_dirty]
    show ((markState g s i).cross_dirty).getD j false = s.cross_dirty.getD j false
    unfold markState
    cases g.cross_order_map.getD i none with
    | none => rfl
    | some c =>
      by_cases hf : s.cross_dirty.getD i false
      · rw [if_pos hf]
      · rw [if_neg hf]
        exact getD_set_other hj

theorem setStatusIdx_list_cases (g : SGraph) (s : SMap) (i : Nat) (v : Status) :
    (setStatusIdx g s i v).cross_dirty_list = s.cross_dirty_list ∨
    (setStatusIdx g s i v).cross_dirty_list = s.cross_dirty_list ++ [i] := by
  by_cases h : statusAt s i = v
  · rw [setStatusIdx_eq_of_eq h]
    exact Or.inl rfl
  · rw [setStatusIdx_eq_of_ne h]
    rw [pushTargets_cross_list]
    show (markState g s i).cross_dirty_list = _ ∨ (markState g s i).cross_dirty_list = _
    unfold markState
    cases g.cross_order_map.getD i none with
    | none => exact Or.inl rfl
    | some c =>
      by_cases hf : s.cross_dirty.getD i false
      · rw [if_pos hf]
        exact Or.inl rfl
      · rw [if_neg hf]
        exact Or.inr rfl

theorem setStatusIdx_list_mono {g : SGraph} {s : SMap} {i : Nat} {v : Status}
    {x : Nat} (h : x ∈ s.cross_dirty_list) :
    x ∈ (setStatusIdx g s i v).cross_dirty_list := by
  rcases setStatusIdx_list_cases g s i v with hc | hc <;> rw [hc] <;> simp [h]

/-- A changed `_set_status` on a vertex with a cross partner leaves the flag
set and the vertex recorded in the cross-dirty list (freshly appended, or
already present when the flag was already set). -/
theorem setStatusIdx_marked {g : SGraph} {s : SMap} {i : Nat} {v : Status} {c : Nat}
    (hcom : g.cross_order_map.getD i none = some c) (hne : statusAt s i ≠ v)
    (hlen : i < s.cross_dirty.length) :
    flagAt (setStatusIdx g s i v) i = true ∧
    (flagAt s i = false → (setStatusIdx g s i v).cross_dirty_list = s.cross_dirty_list ++ [i]) ∧
    (flagAt s i = true → (setStatusIdx g s i v).cross_dirty_list = s.cross_dirty_list) := by
  rw [setStatusIdx_eq_of_ne hne]
  unfold flagAt
  rw [pushTargets_cross_dirty, pushTargets_cross_list]
  show ((markState g s i).cross_dirty.getD i false = true) ∧ _
  unfold markState
  rw [hcom]
  by_cases hf : s.cross_dirty.getD i false
  · rw [if_pos hf]
    refine ⟨hf, ?_, ?_⟩
    · intro h0
      rw [h0] at hf
      simp at hf
    · intro _
      rfl
  · rw [if_neg hf]
    refine ⟨getD_set_self hlen, ?_, ?_⟩
    · intro _
      rfl
    · intro h0
      rw [h0] at hf
      simp at hf

/-- `_set_status` on a vertex with no cross partner leaves the cross-dirty
state untouched. -/
theorem setStatusIdx_nomark {g : SGraph} {s : SMap} {i : Nat} {v : Status}
    (hcom : g.cross_order_map.getD i none = none) :
    (setStatusIdx g s i v).cross_dirty = s.cross_dirty ∧
    (setStatusIdx g s i v).cross_dirty_list = s.cross_dirty_list := by
  by_cases h : statusAt s i = v
  · rw [setStatusIdx_eq_of_eq h]
    exact ⟨rfl, rfl⟩
  · rw [setStatusIdx_eq_of_ne h]
    rw [pushTargets_cross_dirty, pushTargets_cross_list]
    show (markState g s i).cross_dirty = _ ∧ (markState g s i).cross_dirty_list = _
    unfold markState
    rw [hcom]
    exact ⟨rfl, rfl⟩

theorem setStatusIdx_queue_mem {g : SGraph} {s : SMap} {i : Nat} {v : Status}
    {j : Nat} (h : j ∈ (setStatusIdx g s i v).dirty_queue) :
    j ∈ s.dirty_queue ∨ j ∈ g.out_edges_list.getD i [] := by
  by_cases he : statusAt s i = v
  · rw [setStatusIdx_eq_of_eq he] at h
    exact Or.inl h
  · rw [setStatusIdx_eq_of_ne he] at h
    rcases pushTargets_queue_mem h with h1 | h1
    · rw [show ({ markState g s i with
          current_status := (markState g s i).current_status.set i v } : SMap).dirty_queue =
          (markState g s i).dirty_queue from rfl, markState_queue] at h1
      exact Or.inl h1
    · exact Or.inr h1

/-! ### Structural wellformedness of the arena graph

`IvyStatusGraph.__init__` guarantees these facts about the precomputed
arrays (edge targets are never `cross` vertices — no generated edge points
into a cross vertex —, `cross_order_map` relates each entity rank to the
cross rank of the same name injectively, `order` inverts `order_list`, the
source/task key sets carry the right vertex types).  They are collected in a
boolean check so concrete graphs discharge them by evaluation. -/

/-- Wellformedness check for an arena graph. -/
def wfCheck (g : SGraph) : Bool :=
  let n := g.order_list.length
  decide (g.cross_order_map.length = n) &&
  decide (g.out_edges_list.length = n) &&
  ((List.range n).all fun i =>
    match g.cross_order_map.getD i none with
    | some c =>
      decide (c < n) && decide (typeOf g i = .entity) && decide (typeOf g c = .cross) &&
      ((List.range n).all fun i2 =>
        decide (g.cross_order_map.getD i2 none ≠ some c) || decide (i2 = i))
    | none => true) &&
  ((List.range n).all fun i =>
    (g.out_edges_list.getD i []).all fun j =>
      decide (j < n) && decide (typeOf g j ≠ .cross)) &&
  (g.order.all fun ki =>
    decide (ki.2 < n) && decide (g.order_list.getD ki.2 ⟨.task, []⟩ = ki.1)) &&
  (g.non_entity_sources.all fun k => decide (k.type ≠ .entity) && decide (k.type ≠ .task)) &&
  (g.tasks.all fun k => decide (k.type = .task)) &&
  ((List.range n).all fun i =>
    decide (g.cross_order_map.getD i none =
      (if typeOf g i = .entity then
        alGet g.order ⟨.cross, (g.order_list.getD i ⟨.task, []⟩).name⟩
      else none)))

theorem alGet_mem {α β : Type} [DecidableEq α] {l : List (α × β)} {k : α} {v : β}
    (h : alGet l k = some v) : (k, v) ∈ l := by
  induction l with
  | nil => simp [alGet] at h
  | cons hd tl ih =>
    obtain ⟨k0, v0⟩ := hd
    by_cases he : k0 = k
    · subst he
      rw [alGet, if_pos rfl] at h
      injection h with h
      subst h
      simp
    · rw [alGet, if_neg he] at h
      exact List.mem_cons_of_mem _ (ih h)

theorem wf_com {g : SGraph} (hwf : wfCheck g = true) {i c : Nat}
    (h : g.cross_order_map.getD i none = some c) :
    i < g.order_list.length ∧ c < g.order_list.length ∧
    typeOf g i = .entity ∧ typeOf g c = .cross := by
  unfold wfCheck at hwf
  simp only [Bool.and_eq_true, List.all_eq_true, decide_eq_true_eq] at hwf
  obtain ⟨⟨⟨⟨⟨⟨⟨hclen, _⟩, hcom⟩, _⟩, _⟩, _⟩, _⟩, _⟩ := hwf
  have hi : i < g.order_list.length := by
    by_contra hge
    rw [List.getD_eq_default _ _ (by omega : g.cross_order_map.length ≤ i)] at h
    exact Option.noConfusion h
  have hmat := hcom i (List.mem_range.mpr hi)
  rw [h] at hmat
  simp only [Bool.and_eq_true, decide_eq_true_eq] at hmat
  exact ⟨hi, hmat.1.1.1, hmat.1.1.2, hmat.1.2⟩

theorem wf_com_inj {g : SGraph} (hwf : wfCheck g = true) {i i2 c : Nat}
    (h : g.cross_order_map.getD i none = some c)
    (h2 : g.cross_order_map.getD i2 none = some c) : i2 = i := by
  have hi := (wf_com hwf h).1
  have hi2 := (wf_com hwf h2).1
  unfold wfCheck at hwf
  simp only [Bool.and_eq_true, List.all_eq_true, decide_eq_true_eq] at hwf
  obtain ⟨⟨⟨⟨⟨⟨⟨_, _⟩, hcom⟩, _⟩, _⟩, _⟩, _⟩, _⟩ := hwf
  have hmat := hcom i (List.mem_range.mpr hi)
  rw [h] at hmat
  simp only [Bool.and_eq_true, List.all_eq_true, Bool.or_eq_true, decide_eq_true_eq] at hmat
  rcases hmat.2 i2 (List.mem_range.mpr hi2) with hne | heq
  · exact absurd h2 hne
  · exact heq

theorem wf_com_cross_none {g : SGraph} (hwf : wfCheck g = true) {c : Nat}
    (h : typeOf g c = .cross) : g.cross_order_map.getD c none = none := by
  cases hc : g.cross_order_map.getD c none with
  | none => rfl
  | some c2 =>
    have := (wf_com hwf hc).2.2.1
    rw [h] at this
    exact absurd this (by simp)

theorem wf_out {g : SGraph} (hwf : wfCheck g = true) {i j : Nat}
    (h : j ∈ g.out_edges_list.getD i []) :
    j < g.order_list.length ∧ typeOf g j ≠ .cross := by
  unfold wfCheck at hwf
  simp only [Bool.and_eq_true, List.all_eq_true, decide_eq_true_eq] at hwf
  obtain ⟨⟨⟨⟨⟨⟨⟨_, holen⟩, _⟩, hout⟩, _⟩, _⟩, _⟩, _⟩ := hwf
  by_cases hi : i < g.order_list.length
  · have := hout i (List.mem_range.mpr hi) j h
    simp only [Bool.and_eq_true, decide_eq_true_eq] at this
    exact this
  · rw [List.getD_eq_default _ _ (by omega : g.out_edges_list.length ≤ i)] at h
    simp at h

theorem wf_order {g : SGraph} (hwf : wfCheck g = true) {key : StatusKey} {i : Nat}
    (h : alGet g.order key = some i) :
    i < g.order_list.length ∧ g.order_list.getD i ⟨.task, []⟩ = key := by
  unfold wfCheck at hwf
  simp only [Bool.and_eq_true, List.all_eq_true, decide_eq_true_eq] at hwf
  obtain ⟨⟨⟨⟨⟨⟨⟨_, _⟩, _⟩, _⟩, hord⟩, _⟩, _⟩, _⟩ := hwf
  have hmem := alGet_mem h
  have := hord (key, i) hmem
  simp only [Bool.and_eq_true, decide_eq_true_eq] at this
  exact this

theorem wf_nes {g : SGraph} (hwf : wfCheck g = true) {k : StatusKey}
    (h : k ∈ g.non_entity_sources) : k.type ≠ .entity ∧ k.type ≠ .task := by
  unfold wfCheck at hwf
  simp only [Bool.and_eq_true, List.all_eq_true, decide_eq_true_eq] at hwf
  obtain ⟨⟨⟨⟨⟨⟨⟨_, _⟩, _⟩, _⟩, _⟩, hnes⟩, _⟩, _⟩ := hwf
  have := hnes k h
  simp only [Bool.and_eq_true, decide_eq_true_eq] at this
  exact this

theorem wf_tasks {g : SGraph} (hwf : wfCheck g = true) {k : StatusKey}
    (h : k ∈ g.tasks) : k.type = .task := by
  unfold wfCheck at hwf
  simp only [Bool.and_eq_true, List.all_eq_true, decide_eq_true_eq] at hwf
  obtain ⟨⟨⟨⟨⟨⟨⟨_, _⟩, _⟩, _⟩, _⟩, _⟩, htk⟩, _⟩ := hwf
  exact htk k h

theorem wf_com_consistent {g : SGraph} (hwf : wfCheck g = true) {i : Nat}
    (hi : i < g.order_list.length) :
    g.cross_order_map.getD i none =
      (if typeOf g i = .entity then
        alGet g.order ⟨.cross, (g.order_list.getD i ⟨.task, []⟩).name⟩
      else none) := by
  unfold wfCheck at hwf
  simp only [Bool.and_eq_true, List.all_eq_true, decide_eq_true_eq] at hwf
  obtain ⟨⟨⟨⟨⟨⟨⟨_, _⟩, _⟩, _⟩, _⟩, _⟩, _⟩, hcc⟩ := hwf
  exact hcc i (List.mem_range.mpr hi)

/-! ### The cross-tracking invariant

For each entity/cross pair, either the entity is flagged cross-dirty (a copy
is still pending), or the cross vertex holds the entity's status, or the
entity still has its initial `unreachable` and the cross vertex the `pass` it
received as a non-entity source. -/

/-- Lengths of the status and flag arrays match the vertex count. -/
def lenInv (g : SGraph) (s : SMap) : Prop :=
  s.current_status.length = g.order_list.length ∧
  s.cross_dirty.length = g.order_list.length

/-- Every queued rank is in range and is not a cross vertex. -/
def queueInv (g : SGraph) (s : SMap) : Prop :=
  ∀ j ∈ s.dirty_queue, j < g.order_list.length ∧ typeOf g j ≠ .cross

/-- Every flagged vertex is recorded in `extra` or in the cross-dirty list. -/
def flagListRel (s : SMap) (extra : List Nat) : Prop :=
  ∀ i, flagAt s i = true → i ∈ extra ∨ i ∈ s.cross_dirty_list

/-- The per-pair cross invariant. -/
def pairInv (g : SGraph) (s : SMap) : Prop :=
  ∀ i c, g.cross_order_map.getD i none = some c →
    flagAt s i = true ∨ statusAt s c = statusAt s i ∨
    (statusAt s i = .unreachable ∧ statusAt s c = .pass)

/-- The full invariant carried through `iterate`. -/
def C2Inv (g : SGraph) (s : SMap) : Prop :=
  lenInv g s ∧ queueInv g s ∧ flagListRel s [] ∧ pairInv g s

/-- `_set_status` on a non-cross vertex preserves the invariant. -/
theorem setStatusIdx_C2Inv {g : SGraph} {s : SMap} (hwf : wfCheck g = true)
    (hC : C2Inv g s) {i : Nat} (hi : i < g.order_list.length)
    (htype : typeOf g i ≠ .cross) (v : Status) : C2Inv g (setStatusIdx g s i v) := by
  obtain ⟨hlen, hq, hfl, hp⟩ := hC
  by_cases he : statusAt s i = v
  · rw [setStatusIdx_eq_of_eq he]
    exact ⟨hlen, hq, hfl, hp⟩
  refine ⟨?_, ?_, ?_, ?_⟩
  · exact ⟨by rw [setStatusIdx_statusAt_length, hlen.1],
      by rw [setStatusIdx_cross_length, hlen.2]⟩
  · intro j hj
    rcases setStatusIdx_queue_mem hj with h1 | h1
    · exact hq j h1
    · exact wf_out hwf h1
  · intro x hx
    by_cases hxi : x = i
    · subst hxi
      cases hcom : g.cross_order_map.getD x none with
      | none =>
        have hnm := setStatusIdx_nomark (g := g) (s := s) (v := v) hcom
        rw [flagAt, hnm.1] at hx
        rw [hnm.2]
        exact hfl x hx
      | some c =>
        have hm := setStatusIdx_marked hcom he (by rw [hlen.2]; exact hi)
        by_cases hold : flagAt s x = true
        · rw [hm.2.2 hold]
          exact hfl x hold
        · rw [hm.2.1 (by revert hold; cases flagAt s x <;> simp)]
          exact Or.inr (by simp)
    · rw [setStatusIdx_flagAt_other hxi] at hx
      rcases hfl x hx with h1 | h1
      · simp at h1
      · exact Or.inr (setStatusIdx_list_mono h1)
  · intro i2 c2 hcom2
    obtain ⟨hi2, hc2, hti2, htc2⟩ := wf_com hwf hcom2
    have hstatlen : i < s.current_status.length := by rw [hlen.1]; exact hi
    have hc2ne : c2 ≠ i := fun hcc => htype (hcc ▸ htc2)
    by_cases hii : i2 = i
    · subst hii
      have hm := setStatusIdx_marked hcom2 he (by rw [hlen.2]; exact hi)
      exact Or.inl hm.1
    · have hflag2 : flagAt (setStatusIdx g s i v) i2 = flagAt s i2 :=
        setStatusIdx_flagAt_other hii
      have hst2 : statusAt (setStatusIdx g s i v) i2 = statusAt s i2 := by
        rw [setStatusIdx_statusAt hstatlen, if_neg hii]
      have hstc2 : statusAt (setStatusIdx g s i v) c2 = statusAt s c2 := by
        rw [setStatusIdx_statusAt hstatlen, if_neg hc2ne]
      rw [hflag2, hst2, hstc2]
      exact hp i2 c2 hcom2

/-- One pop of the dirty queue preserves the invariant. -/
theorem popStep_C2Inv {g : SGraph} {s : SMap} (hwf : wfCheck g = true)
    (hC : C2Inv g s) : C2Inv g (popStep g s) := by
  obtain ⟨hlen, hq, hfl, hp⟩ := hC
  unfold popStep
  cases hque : s.dirty_queue with
  | nil => exact ⟨hlen, hq, hfl, hp⟩
  | cons i rest =>
    obtain ⟨hi, hti⟩ := hq i (by rw [hque]; simp)
    have hC1 : C2Inv g { s with dirty_queue := rest, dirty := s.dirty.set i false } := by
      refine ⟨⟨hlen.1, hlen.2⟩, ?_, hfl, hp⟩
      intro j hj
      exact hq j (by rw [hque]; simp [hj])
    exact setStatusIdx_C2Inv hwf hC1 hi hti _

/-- The inner dirty loop preserves the invariant. -/
theorem iterateInner_C2Inv {g : SGraph} (hwf : wfCheck g = true) (fuel : Nat) :
    ∀ s : SMap, C2Inv g s → C2Inv g (iterateInner g fuel s) := by
  induction fuel with
  | zero => exact fun s h => h
  | succ fuel ih =>
    intro s h
    unfold iterateInner
    cases hque : s.dirty_queue with
    | nil => exact h
    | cons i rest => exact ih _ (popStep_C2Inv hwf h)

/-- The cross flush preserves the invariant, relative to the list of entries
still to flush. -/
theorem flushFold_C2Inv {g : SGraph} (hwf : wfCheck g = true) (l : List Nat) :
    ∀ s : SMap, lenInv g s → queueInv g s → flagListRel s l → pairInv g s →
      C2Inv g (l.foldl (flushOne g) s) := by
  induction l with
  | nil => exact fun s h1 h2 h3 h4 => ⟨h1, h2, h3, h4⟩
  | cons i0 rest ih =>
    intro s hlen hq hfl hp
    rw [List.foldl_cons]
    set s1 : SMap := { s with cross_dirty := s.cross_dirty.set i0 false } with hs1
    have hs1flag : ∀ x, x ≠ i0 → flagAt s1 x = flagAt s x := by
      intro x hx
      show (s.cross_dirty.set i0 false).getD x false = s.cross_dirty.getD x false
      exact getD_set_other hx
    have hs1flag0 : flagAt s1 i0 = false := by
      show (s.cross_dirty.set i0 false).getD i0 false = false
      by_cases h0 : i0 < s.cross_dirty.length
      · exact getD_set_self h0
      · rw [List.set_eq_of_length_le (by omega)]
        exact List.getD_eq_default _ _ (by omega)
    have hs1stat : ∀ x, statusAt s1 x = statusAt s x := fun x => rfl
    have hfl1 : ∀ x, flagAt s1 x = true → x ∈ rest ∨ x ∈ s1.cross_dirty_list := by
      intro x hx
      by_cases hxi : x = i0
      · rw [hxi, hs1flag0] at hx
        exact Bool.noConfusion hx
      · rw [hs1flag x hxi] at hx
        rcases hfl x hx with h1 | h1
        · rcases List.mem_cons.mp h1 with h2 | h2
          · exact absurd h2 hxi
          · exact Or.inl h2
        · exact Or.inr h1
    unfold flushOne
    cases hcom : g.cross_order_map.getD i0 none with
    | none =>
      apply ih
      · exact ⟨hlen.1, by simpa using hlen.2⟩
      · exact fun j hj => hq j hj
      · exact hfl1
      · intro i2 c2 hcom2
        have hne : i2 ≠ i0 := fun h => (by rw [h] at hcom2; rw [hcom2] at hcom; cases hcom)
        rw [hs1flag i2 hne, hs1stat, hs1stat]
        exact hp i2 c2 hcom2
    | some c =>
      obtain ⟨hi0, hc, hti0, htc⟩ := wf_com hwf hcom
      have hcomc : g.cross_order_map.getD c none = none := wf_com_cross_none hwf htc
      have hlen1 : lenInv g s1 := ⟨hlen.1, by simpa using hlen.2⟩
      have hcne : c ≠ i0 := fun h => by rw [h, hti0] at htc; cases htc
      have hclen : c < s1.current_status.length := by
        show c < s.current_status.length
        rw [hlen.1]
        exact hc
      apply ih
      · exact ⟨by rw [setStatusIdx_statusAt_length]; exact hlen1.1,
          by rw [setStatusIdx_cross_length]; exact hlen1.2⟩
      · intro j hj
        rcases setStatusIdx_queue_mem hj with h1 | h1
        · exact hq j h1
        · exact wf_out hwf h1
      · intro x hx
        have hnm := setStatusIdx_nomark (g := g) (s := s1)
          (v := s1.current_status.getD i0 .unreachable) hcomc
        rw [flagAt, hnm.1] at hx
        rw [hnm.2]
        exact hfl1 x hx
      · intro i2 c2 hcom2
        obtain ⟨hi2, hc2, hti2, htc2⟩ := wf_com hwf hcom2
        have hnm := setStatusIdx_nomark (g := g) (s := s1)
          (v := s1.current_status.getD i0 .unreachable) hcomc
        have hflagkeep : flagAt (setStatusIdx g s1 c (s1.current_status.getD i0 .unreachable)) i2 =
            flagAt s1 i2 := by
          unfold flagAt
          rw [hnm.1]
        have hi2nc : i2 ≠ c := fun h => by rw [h, htc] at hti2; cases hti2
        have hsti2 : statusAt (setStatusIdx g s1 c (s1.current_status.getD i0 .unreachable)) i2 =
            statusAt s1 i2 := by
          rw [setStatusIdx_statusAt hclen, if_neg hi2nc]
        by_cases hii : i2 = i0
        · subst hii
          have hcc : c2 = c := Option.some.inj (hcom2.symm.trans hcom)
          subst hcc
          refine Or.inr (Or.inl ?_)
          rw [hsti2, setStatusIdx_statusAt hclen, if_pos rfl]
          rfl
        · have hc2nc : c2 ≠ c := fun h => hii (wf_com_inj hwf hcom (h ▸ hcom2))
          have hstc2 : statusAt (setStatusIdx g s1 c (s1.current_status.getD i0 .unreachable)) c2 =
              statusAt s1 c2 := by
            rw [setStatusIdx_statusAt hclen, if_neg hc2nc]
          rw [hflagkeep, hsti2, hstc2, hs1flag i2 hii, hs1stat, hs1stat]
          exact hp i2 c2 hcom2

/-- `iterate` preserves the invariant. -/
theorem iterate_C2Inv {g : SGraph} (hwf : wfCheck g = true) (fo fi : Nat) :
    ∀ s : SMap, C2Inv g s → C2Inv g (iterate g fo fi s) := by
  induction fo with
  | zero => exact fun s h => h
  | succ fo ih =>
    intro s h
    unfold iterate
    by_cases hdone : s.dirty_queue = [] ∧ s.cross_dirty_list = []
    · rw [if_pos hdone]
      exact h
    · rw [if_neg hdone]
      have h1 : C2Inv g (iterateInner g fi s) := iterateInner_C2Inv hwf fi s h
      by_cases hq : (iterateInner g fi s).dirty_queue = []
      · rw [if_pos hq]
        apply ih
        obtain ⟨hl, hqi, hfl, hp⟩ := h1
        apply flushFold_C2Inv hwf (iterateInner g fi s).cross_dirty_list
          { iterateInner g fi s with cross_dirty_list := ([] : List Nat) }
        · exact ⟨hl.1, hl.2⟩
        · exact hqi
        · intro x hx
          rcases hfl x hx with h2 | h2
          · simp at h2
          · exact Or.inl h2
        · exact hp
      · rw [if_neg hq]
        exact h1

/-! ### Establishing the invariant at initialization -/

/-- The invariant of the initialization phase: nothing is cross-dirty yet,
entity vertices are untouched (`unreachable`) and cross vertices hold either
their initial `unreachable` or the `pass` given to non-entity sources. -/
def InitInv (g : SGraph) (s : SMap) : Prop :=
  lenInv g s ∧ queueInv g s ∧ s.cross_dirty_list = [] ∧ (∀ i, flagAt s i = false) ∧
  (∀ i, typeOf g i = .entity → statusAt s i = .unreachable) ∧
  (∀ i, typeOf g i = .cross → statusAt s i = .unreachable ∨ statusAt s i = .pass)

theorem getD_replicate_self {α : Type} (n i : Nat) (a : α) :
    (List.replicate n a).getD i a = a := by
  induction n generalizing i with
  | zero => rfl
  | succ n ih =>
    cases i with
    | zero => rfl
    | succ j => exact ih j

/-- A `set_status` during initialization (non-entity target; `pass` when the
target is a cross vertex) preserves the initialization invariant. -/
theorem setStatus_InitInv {g : SGraph} (hwf : wfCheck g = true) {s : SMap}
    (hI : InitInv g s) (key : StatusKey) (v : Status) (hkey : key.type ≠ .entity)
    (hcross : key.type = .cross → v = .pass) : InitInv g (setStatus g s key v) := by
  obtain ⟨hlen, hq, hlist, hflags, hent, hcrossv⟩ := hI
  unfold setStatus
  cases halg : alGet g.order key with
  | none => exact ⟨hlen, hq, hlist, hflags, hent, hcrossv⟩
  | some i =>
    obtain ⟨hi, hkeyeq⟩ := wf_order hwf halg
    have htypei : typeOf g i = key.type := by
      unfold typeOf
      rw [hkeyeq]
    have hcomi : g.cross_order_map.getD i none = none := by
      cases hcomi : g.cross_order_map.getD i none with
      | none => rfl
      | some c =>
        have := (wf_com hwf hcomi).2.2.1
        rw [htypei] at this
        exact absurd this hkey
    have hnm := setStatusIdx_nomark (g := g) (s := s) (v := v) hcomi
    refine ⟨?_, ?_, ?_, ?_, ?_, ?_⟩
    · exact ⟨by rw [setStatusIdx_statusAt_length, hlen.1],
        by rw [setStatusIdx_cross_length, hlen.2]⟩
    · intro j hj
      rcases setStatusIdx_queue_mem hj with h1 | h1
      · exact hq j h1
      · exact wf_out hwf h1
    · rw [hnm.2]
      exact hlist
    · intro x
      show (setStatusIdx g s i v).cross_dirty.getD x false = false
      rw [hnm.1]
      exact hflags x
    · intro j hj
      have hji : j ≠ i := fun he => hkey (by rw [← htypei, ← he]; exact hj)
      rw [setStatusIdx_statusAt (by rw [hlen.1]; exact hi), if_neg hji]
      exact hent j hj
    · intro j hj
      by_cases hji : j = i
      · subst hji
        have hv : v = .pass := hcross (htypei ▸ hj)
        rw [setStatusIdx_statusAt (by rw [hlen.1]; exact hi), if_pos rfl, hv]
        exact Or.inr rfl
      · rw [setStatusIdx_statusAt (by rw [hlen.1]; exact hi), if_neg hji]
        exact hcrossv j hj

/-- Folding initialization writes over a list of benign keys preserves the
initialization invariant. -/
theorem foldl_setStatus_InitInv {g : SGraph} (hwf : wfCheck g = true)
    (keys : List StatusKey) (f : StatusKey → Status)
    (hkeys : ∀ k ∈ keys, k.type ≠ .entity ∧ (k.type = .cross → f k = .pass)) :
    ∀ s : SMap, InitInv g s →
      InitInv g (keys.foldl (fun s key => setStatus g s key (f key)) s) := by
  induction keys with
  | nil => exact fun s h => h
  | cons k rest ih =>
    intro s h
    rw [List.foldl_cons]
    have hk := hkeys k (by simp)
    exact ih (fun k2 hk2 => hkeys k2 (by simp [hk2])) _
      (setStatus_InitInv hwf h k (f k) hk.1 hk.2)

/-- After `IvyStatusMap.__init__` and the task-seeding loop, the propagation
invariant holds. -/
theorem init_C2Inv {g : SGraph} (hwf : wfCheck g = true) (sigma : StatusKey → Status) :
    C2Inv g (setTaskStatuses g sigma (initMap g)) := by
  have hbase : InitInv g ⟨List.replicate g.order_list.length .unreachable,
      List.replicate g.order_list.length false, [],
      List.replicate g.order_list.length false, []⟩ := by
    refine ⟨⟨by simp, by simp⟩, ?_, rfl, ?_, ?_, ?_⟩
    · intro j hj
      simp at hj
    · intro x
      show (List.replicate g.order_list.length false).getD x false = false
      rw [getD_replicate_self]
    · intro j _
      show (List.replicate g.order_list.length Status.unreachable).getD j .unreachable =
        .unreachable
      rw [getD_replicate_self]
    · intro j _
      refine Or.inl ?_
      show (List.replicate g.order_list.length Status.unreachable).getD j .unreachable =
        .unreachable
      rw [getD_replicate_self]
  have hsrc : InitInv g (initMap g) := by
    unfold initMap
    have h1 := foldl_setStatus_InitInv hwf g.non_entity_sources (fun _ => Status.pass)
      (fun k hk => ⟨(wf_nes hwf hk).1, fun _ => rfl⟩) _ hbase
    exact foldl_setStatus_InitInv hwf g.tasks (fun _ => Status.pending)
      (fun k hk => ⟨by rw [wf_tasks hwf hk]; simp, fun hc => by rw [wf_tasks hwf hk] at hc; cases hc⟩)
      _ h1
  have hfin : InitInv g (setTaskStatuses g sigma (initMap g)) := by
    unfold setTaskStatuses
    exact foldl_setStatus_InitInv hwf g.tasks sigma
      (fun k hk => ⟨by rw [wf_tasks hwf hk]; simp, fun hc => by rw [wf_tasks hwf hk] at hc; cases hc⟩)
      _ hsrc
  obtain ⟨hlen, hq, hlist, hflags, hent, hcrossv⟩ := hfin
  refine ⟨hlen, hq, ?_, ?_⟩
  · intro x hx
    rw [hflags x] at hx
    cases hx
  · intro i c hcom
    obtain ⟨_, _, hti, htc⟩ := wf_com hwf hcom
    rcases hcrossv c htc with h1 | h1
    · exact Or.inr (Or.inl (by rw [h1, hent i hti]))
    · exact Or.inr (Or.inr ⟨hent i hti, h1⟩)

/-- C2 amended.  Cross deferral up to unreached entities: for every name with
both an entity and a cross vertex, after seeding the task vertices from any
store valuation and running `iterate()` to completion (both the dirty queue
and the cross-dirty list empty), the cross vertex holds the entity vertex's
status — except when the entity vertex still has its initial `unreachable`
status (it was never recomputed to anything else), in which case the cross
vertex holds the `pass` it was given as a non-entity source. -/
theorem c2_cross_deferral_amended (g : SGraph) (hwf : wfCheck g = true)
    (sigma : StatusKey → Status) (fo fi : Nat) (nm : IvyName) (i c : Nat)
    (hi : alGet g.order ⟨.entity, nm⟩ = some i)
    (hc : alGet g.order ⟨.cross, nm⟩ = some c)
    (hdq : (iterate g fo fi (setTaskStatuses g sigma (initMap g))).dirty_queue = [])
    (hl : (iterate g fo fi (setTaskStatuses g sigma (initMap g))).cross_dirty_list = []) :
    statusAt (iterate g fo fi (setTaskStatuses g sigma (initMap g))) c =
      statusAt (iterate g fo fi (setTaskStatuses g sigma (initMap g))) i ∨
    (statusAt (iterate g fo fi (setTaskStatuses g sigma (initMap g))) i = .unreachable ∧
     statusAt (iterate g fo fi (setTaskStatuses g sigma (initMap g))) c = .pass) := by
  obtain ⟨hi_lt, hkeyeq⟩ := wf_order hwf hi
  have htypei : typeOf g i = .entity := by
    unfold typeOf
    rw [hkeyeq]
  have hcom : g.cross_order_map.getD i none = some c := by
    rw [wf_com_consistent hwf hi_lt, if_pos htypei, hkeyeq]
    exact hc
  have hfin : C2Inv g (iterate g fo fi (setTaskStatuses g sigma (initMap g))) :=
    iterate_C2Inv hwf fo fi _ (init_C2Inv hwf sigma)
  obtain ⟨_, _, hfl, hp⟩ := hfin
  rcases hp i c hcom with hflag | h | h
  · rcases hfl i hflag with h2 | h2
    · simp at h2
    · rw [hl] at h2
      simp at h2
  · exact Or.inl h
  · exact Or.inr h

/-- Witness for the amended C2 on the concrete refutation graph (where the
second disjunct is the one realized). -/
theorem c2_cross_deferral_amended_witness :
    statusAt (iterate ex1G 10 100 (setTaskStatuses ex1G ex1SigmaLow (initMap ex1G))) 6 =
      statusAt (iterate ex1G 10 100 (setTaskStatuses ex1G ex1SigmaLow (initMap ex1G))) 2 ∨
    (statusAt (iterate ex1G 10 100 (setTaskStatuses ex1G ex1SigmaLow (initMap ex1G))) 2 =
      .unreachable ∧
     statusAt (iterate ex1G 10 100 (setTaskStatuses ex1G ex1SigmaLow (initMap ex1G))) 6 =
      .pass) :=
  c2_cross_deferral_amended ex1G (by decide) ex1SigmaLow 10 100 ["A"] 2 6
    (by decide) (by decide) (by decide) (by decide)

/-! ## Hierarchical-name db keys (data.py `IvyName.db_key` / `from_db_key`)

`db_key` is `json.dumps(self.parts, separators=(",", ":"))` — a compact JSON
array of strings with `ensure_ascii` escaping — and `from_db_key` decodes it
with `json.loads`.  Both are embedded over unicode scalar values (Lean
`Char`); the encoder follows `json.encoder.py_encode_basestring_ascii`
(two-character escapes for backslash, quote, `\b\t\n\f\r`, `\u00xx` for the
other control characters, `\uxxxx` for every character outside `0x20..0x7e`,
surrogate pairs beyond the basic plane) and the decoder follows
`json.scanner.py_scanstring` (including surrogate-pair recombination and the
strict-mode rejection of raw control characters). -/

/-- Lowercase hex digit, as python `'{0:04x}'.format`. -/
def hexDigit (n : Nat) : Char :=
  if n < 10 then Char.ofNat (48 + n) else Char.ofNat (87 + n)

/-- Four lowercase hex digits of a number below `0x10000`. -/
def toHex4 (n : Nat) : List Char :=
  [hexDigit (n / 4096 % 16), hexDigit (n / 256 % 16), hexDigit (n / 16 % 16), hexDigit (n % 16)]

/-- Escape one character as `py_encode_basestring_ascii` does. -/
def escapeChar (c : Char) : List Char :=
  if c = '\\' then ['\\', '\\']
  else if c = '"' then ['\\', '"']
  else if c.toNat = 8 then ['\\', 'b']
  else if c.toNat = 9 then ['\\', 't']
  else if c.toNat = 10 then ['\\', 'n']
  else if c.toNat = 12 then ['\\', 'f']
  else if c.toNat = 13 then ['\\', 'r']
  else if c.toNat < 0x20 then '\\' :: 'u' :: toHex4 c.toNat
  else if c.toNat ≤ 0x7e then [c]
  else if c.toNat < 0x10000 then '\\' :: 'u' :: toHex4 c.toNat
  else
    ('\\' :: 'u' :: toHex4 (0xd800 + (c.toNat - 0x10000) / 0x400)) ++
    ('\\' :: 'u' :: toHex4 (0xdc00 + (c.toNat - 0x10000) % 0x400))

/-- JSON string encoding of a list of characters. -/
def encodeString (s : List Char) : List Char :=
  '"' :: s.flatMap escapeChar ++ ['"']

/-- Python `','.join`. -/
def joinComma : List (List Char) → List Char
  | [] => []
  | [x] => x
  | x :: xs => x ++ ',' :: joinComma xs

/-- Embeds `IvyName.db_key` on the list of name parts:
`json.dumps(parts, separators=(",", ":"))`. -/
def db_key (parts : List String) : String :=
  String.mk ('[' :: joinComma ((parts.map String.data).map encodeString) ++ [']'])

/-- Numeric value of a hex digit, upper or lower case, as `int(s, 16)`
accepts inside `\uXXXX`. -/
def hexVal (c : Char) : Option Nat :=
  if 48 ≤ c.toNat ∧ c.toNat ≤ 57 then some (c.toNat - 48)
  else if 97 ≤ c.toNat ∧ c.toNat ≤ 102 then some (c.toNat - 87)
  else if 65 ≤ c.toNat ∧ c.toNat ≤ 70 then some (c.toNat - 55)
  else none

/-- Parse exactly four hex digits. -/
def parseHex4 : List Char → Option (Nat × List Char)
  | a :: b :: c :: d :: rest =>
    match hexVal a, hexVal b, hexVal c, hexVal d with
    | some x, some y, some z, some w => some (x * 4096 + y * 256 + z * 16 + w, rest)
    | _, _, _, _ => none
  | _ => none

/-- The `BACKSLASH` escape table of `py_scanstring` (`\u` handled apart). -/
def escTable (e : Char) : Option Char :=
  if e = '"' then some '"'
  else if e = '\\' then some '\\'
  else if e = '/' then some '/'
  else if e = 'b' then some (Char.ofNat 8)
  else if e = 'f' then some (Char.ofNat 12)
  else if e = 'n' then some (Char.ofNat 10)
  else if e = 'r' then some (Char.ofNat 13)
  else if e = 't' then some (Char.ofNat 9)
  else none

/-- The body of `py_scanstring` after the opening quote, one loop iteration:
literal characters up to the closing quote, backslash escapes, `\uXXXX` with
surrogate-pair recombination, and rejection of raw control characters
(strict mode).  `k` continues with the rest of the input.  A recombined or
lone code point is turned into a `Char`; scalar-value inputs (the only ones
the encoder produces) never hit `Char.ofNat`'s fallback. -/
def psbStep (k : List Char → Option (List Char × List Char)) (cs : List Char) :
    Option (List Char × List Char) :=
  match cs with
  | [] => none
  | c :: rest =>
    if c = '"' then some ([], rest)
    else if c = '\\' then
      match rest with
      | [] => none
      | e :: rest1 =>
        if e = 'u' then
          match parseHex4 rest1 with
          | none => none
          | some (u, rest2) =>
            if 0xd800 ≤ u ∧ u ≤ 0xdbff then
              match rest2 with
              | b :: e2 :: rest3 =>
                if b = '\\' ∧ e2 = 'u' then
                  match parseHex4 rest3 with
                  | none => none
                  | some (u2, rest4) =>
                    if 0xdc00 ≤ u2 ∧ u2 ≤ 0xdfff then
                      pushCode k (0x10000 + (u - 0xd800) * 0x400 + (u2 - 0xdc00)) rest4
                    else pushCode k u rest2
                else pushCode k u rest2
              | _ => pushCode k u rest2
            else pushCode k u rest2
        else
          match escTable e with
          | none => none
          | some d =>
            match k rest1 with
            | none => none
            | some (s, r) => some (d :: s, r)
    else if c.toNat < 0x20 then none
    else
      match k rest with
      | none => none
      | some (s, r) => some (c :: s, r)
where
  /-- Continuation of the `\u` branch: prepend the decoded code point. -/
  pushCode (k : List Char → Option (List Char × List Char)) (u : Nat)
      (restN : List Char) : Option (List Char × List Char) :=
    match k restN with
    | none => none
    | some (s, r) => some (Char.ofNat u :: s, r)

/-- The full string-body loop, fuel-bounded. -/
def parseStringBody : Nat → List Char → Option (List Char × List Char)
  | 0, _ => none
  | fuel + 1, cs => psbStep (parseStringBody fuel) cs

/-- Parse one JSON string (opening quote then body). -/
def parseString (cs : List Char) : Option (List Char × List Char) :=
  match cs with
  | c :: rest => if c = '"' then parseStringBody (rest.length + 1) rest else none
  | [] => none

/-- One element of the comma-separated string list of a JSON array: a string
followed by a comma (continue via `k`) or the closing bracket. -/
def parseElemsStep (k : List Char → Option (List (List Char) × List Char))
    (cs : List Char) : Option (List (List Char) × List Char) :=
  match parseString cs with
  | none => none
  | some (s, rest) =>
    match rest with
    | [] => none
    | r :: rest2 =>
      if r = ',' then
        match k rest2 with
        | none => none
        | some (elems, rest3) => some (s :: elems, rest3)
      else if r = ']' then some ([s], rest2)
      else none

/-- Parse the comma-separated string elements of a JSON array up to the
closing bracket, fuel-bounded. -/
def parseElems : Nat → List Char → Option (List (List Char) × List Char)
  | 0, _ => none
  | fuel + 1, cs => parseElemsStep (parseElems fuel) cs

/-- Parse a compact JSON array of strings: an immediate closing bracket gives
the empty array, anything else is handed to the element loop. -/
def parseArray (fuel : Nat) (cs : List Char) : Option (List (List Char) × List Char) :=
  match cs with
  | [] => none
  | b :: rest =>
    if b = '[' then
      match rest with
      | [] => none
      | b2 :: rest2 => if b2 = ']' then some (([] : List (List Char)), rest2) else parseElems fuel rest
    else none

/-- Embeds `IvyName.from_db_key`: `json.loads` of the key (which must consume
the whole input) rebuilt into name parts. -/
def from_db_key (key : String) : Option (List String) :=
  match parseArray key.data.length key.data with
  | some (parts, []) => some (parts.map String.mk)
  | _ => none

/-! ### Round trip of the db-key encoding -/

theorem toNat_ofNat_valid {n : Nat} (h : n.isValidChar) : (Char.ofNat n).toNat = n := by
  unfold Char.ofNat
  rw [dif_pos h]
  simp [Char.ofNatAux, Char.toNat, UInt32.toNat]

theorem ofNat_toNat_char (c : Char) : Char.ofNat c.toNat = c := by
  have hv : (c.toNat).isValidChar := c.valid
  unfold Char.ofNat
  rw [dif_pos hv]
  apply Char.eq_of_val_eq
  obtain ⟨⟨⟨v, hlt⟩⟩, hvalid⟩ := c
  rfl

theorem char_scalar (c : Char) :
    c.toNat < 0xd800 ∨ (0xdfff < c.toNat ∧ c.toNat < 0x110000) := c.valid

theorem char_eq_of_toNat {c d : Char} (h : c.toNat = d.toNat) : c = d := by
  rw [← ofNat_toNat_char c, ← ofNat_toNat_char d, h]

theorem char_ne_of_toNat_ne {c d : Char} (h : c.toNat ≠ d.toNat) : c ≠ d :=
  fun he => h (by rw [he])

theorem hexVal_hexDigit {d : Nat} (h : d < 16) : hexVal (hexDigit d) = some d := by
  by_cases h10 : d < 10
  · have hd : hexDigit d = Char.ofNat (48 + d) := by
      unfold hexDigit
      rw [if_pos h10]
    rw [hd]
    unfold hexVal
    rw [toNat_ofNat_valid (Or.inl (by omega))]
    rw [if_pos (by omega : 48 ≤ 48 + d ∧ 48 + d ≤ 57)]
    congr 1
    omega
  · have hd : hexDigit d = Char.ofNat (87 + d) := by
      unfold hexDigit
      rw [if_neg h10]
    rw [hd]
    unfold hexVal
    rw [toNat_ofNat_valid (Or.inl (by omega))]
    rw [if_neg (by omega : ¬(48 ≤ 87 + d ∧ 87 + d ≤ 57))]
    rw [if_pos (by omega : 97 ≤ 87 + d ∧ 87 + d ≤ 102)]
    congr 1
    omega

theorem parseHex4_toHex4 {n : Nat} (h : n < 0x10000) (rest : List Char) :
    parseHex4 (toHex4 n ++ rest) = some (n, rest) := by
  have e1 := hexVal_hexDigit (show n / 4096 % 16 < 16 by omega)
  have e2 := hexVal_hexDigit (show n / 256 % 16 < 16 by omega)
  have e3 := hexVal_hexDigit (show n / 16 % 16 < 16 by omega)
  have e4 := hexVal_hexDigit (show n % 16 < 16 by omega)
  have harith : n / 4096 % 16 * 4096 + n / 256 % 16 * 256 + n / 16 % 16 * 16 + n % 16 = n := by
    omega
  simp only [toHex4, List.cons_append, List.nil_append, parseHex4, e1, e2, e3, e4, harith]

/-! Single-step reductions of the string-body parser. -/

theorem parseStringBody_succ (fuel : Nat) (cs : List Char) :
    parseStringBody (fuel + 1) cs = psbStep (parseStringBody fuel) cs := rfl

theorem psbStep_quote (k : List Char → Option (List Char × List Char)) (rest : List Char) :
    psbStep k ('"' :: rest) = some ([], rest) := by
  simp only [psbStep, ite_true, ite_false]

theorem psbStep_lit {c : Char} (h1 : c ≠ '"') (h2 : c ≠ '\\') (h3 : ¬c.toNat < 0x20)
    (k : List Char → Option (List Char × List Char)) (rest : List Char) :
    psbStep k (c :: rest) =
      match k rest with
      | none => none
      | some (s, r) => some (c :: s, r) := by
  simp only [psbStep, h1, h2, h3, ite_true, ite_false]

theorem psbStep_esc {e : Char} (hne : e ≠ 'u') {d : Char} (hd : escTable e = some d)
    (k : List Char → Option (List Char × List Char)) (rest : List Char) :
    psbStep k ('\\' :: e :: rest) =
      match k rest with
      | none => none
      | some (s, r) => some (d :: s, r) := by
  simp only [psbStep, hne, hd, ite_true, ite_false,
    (by decide : ¬('\\' : Char) = '"'), (by decide : ('\\' : Char) = '\\')]

theorem psbStep_u_bmp {n : Nat} (hlow : ¬(0xd800 ≤ n ∧ n ≤ 0xdbff)) (hn : n < 0x10000)
    (k : List Char → Option (List Char × List Char)) (rest : List Char) :
    psbStep k ('\\' :: 'u' :: (toHex4 n ++ rest)) =
      match k rest with
      | none => none
      | some (s, r) => some (Char.ofNat n :: s, r) := by
  simp only [psbStep, parseHex4_toHex4 hn, hlow, ite_true, ite_false, psbStep.pushCode,
    (by decide : ¬('\\' : Char) = '"'), (by decide : ('\\' : Char) = '\\')]

theorem psbStep_u_pair {n : Nat} (hlo : 0x10000 ≤ n) (hhi : n < 0x110000)
    (k : List Char → Option (List Char × List Char)) (rest : List Char) :
    psbStep k ('\\' :: 'u' :: (toHex4 (0xd800 + (n - 0x10000) / 0x400) ++
        ('\\' :: 'u' :: (toHex4 (0xdc00 + (n - 0x10000) % 0x400) ++ rest)))) =
      match k rest with
      | none => none
      | some (s, r) => some (Char.ofNat n :: s, r) := by
  have hd1 : (0xd800 + (n - 0x10000) / 0x400) < 0x10000 := by omega
  have hd2 : (0xdc00 + (n - 0x10000) % 0x400) < 0x10000 := by omega
  have hr1 : 0xd800 ≤ 0xd800 + (n - 0x10000) / 0x400 ∧
      0xd800 + (n - 0x10000) / 0x400 ≤ 0xdbff := by
    constructor
    · omega
    · omega
  have hr2 : 0xdc00 ≤ 0xdc00 + (n - 0x10000) % 0x400 ∧
      0xdc00 + (n - 0x10000) % 0x400 ≤ 0xdfff := by
    constructor
    · omega
    · omega
  have hco : 0x10000 + (0xd800 + (n - 0x10000) / 0x400 - 0xd800) * 0x400 +
      (0xdc00 + (n - 0x10000) % 0x400 - 0xdc00) = n := by
    omega
  simp only [psbStep, parseHex4_toHex4 hd1, parseHex4_toHex4 hd2, hr1, hr2, hco,
    ite_true, ite_false, and_self, psbStep.pushCode,
    (by decide : ¬('\\' : Char) = '"'), (by decide : ('\\' : Char) = '\\')]

theorem one_le_escapeChar_length (c : Char) : 1 ≤ (escapeChar c).length := by
  unfold escapeChar
  repeat' split
  all_goals simp

/-- One loop iteration of the string scanner undoes `escapeChar`. -/
theorem psbStep_escapeChar (c : Char) (k : List Char → Option (List Char × List Char))
    (tail : List Char) :
    psbStep k (escapeChar c ++ tail) =
      match k tail with
      | none => none
      | some (s, r) => some (c :: s, r) := by
  by_cases hbs : c = '\\'
  · subst hbs
    rw [show escapeChar '\\' = ['\\', '\\'] from by decide]
    exact psbStep_esc (by decide) (by decide) k tail
  by_cases hq : c = '"'
  · subst hq
    rw [show escapeChar '"' = ['\\', '"'] from by decide]
    exact psbStep_esc (by decide) (by decide) k tail
  by_cases h8 : c.toNat = 8
  · have hesc : escapeChar c = ['\\', 'b'] := by
      unfold escapeChar
      rw [if_neg hbs, if_neg hq, if_pos h8]
    rw [hesc, show (['\\', 'b'] : List Char) ++ tail = '\\' :: 'b' :: tail from rfl,
      psbStep_esc (by decide) (by decide : escTable 'b' = some (Char.ofNat 8)) k tail,
      show Char.ofNat 8 = c from by rw [← h8]; exact ofNat_toNat_char c]
  by_cases h9 : c.toNat = 9
  · have hesc : escapeChar c = ['\\', 't'] := by
      unfold escapeChar
      rw [if_neg hbs, if_neg hq, if_neg h8, if_pos h9]
    rw [hesc, show (['\\', 't'] : List Char) ++ tail = '\\' :: 't' :: tail from rfl,
      psbStep_esc (by decide) (by decide : escTable 't' = some (Char.ofNat 9)) k tail,
      show Char.ofNat 9 = c from by rw [← h9]; exact ofNat_toNat_char c]
  by_cases h10 : c.toNat = 10
  · have hesc : escapeChar c = ['\\', 'n'] := by
      unfold escapeChar
      rw [if_neg hbs, if_neg hq, if_neg h8, if_neg h9, if_pos h10]
    rw [hesc, show (['\\', 'n'] : List Char) ++ tail = '\\' :: 'n' :: tail from rfl,
      psbStep_esc (by decide) (by decide : escTable 'n' = some (Char.ofNat 10)) k tail,
      show Char.ofNat 10 = c from by rw [← h10]; exact ofNat_toNat_char c]
  by_cases h12 : c.toNat = 12
  · have hesc : escapeChar c = ['\\', 'f'] := by
      unfold escapeChar
      rw [if_neg hbs, if_neg hq, if_neg h8, if_neg h9, if_neg h10, if_pos h12]
    rw [hesc, show (['\\', 'f'] : List Char) ++ tail = '\\' :: 'f' :: tail from rfl,
      psbStep_esc (by decide) (by decide : escTable 'f' = some (Char.ofNat 12)) k tail,
      show Char.ofNat 12 = c from by rw [← h12]; exact ofNat_toNat_char c]
  by_cases h13 : c.toNat = 13
  · have hesc : escapeChar c = ['\\', 'r'] := by
      unfold escapeChar
      rw [if_neg hbs, if_neg hq, if_neg h8, if_neg h9, if_neg h10, if_neg h12, if_pos h13]
    rw [hesc, show (['\\', 'r'] : List Char) ++ tail = '\\' :: 'r' :: tail from rfl,
      psbStep_esc (by decide) (by decide : escTable 'r' = some (Char.ofNat 13)) k tail,
      show Char.ofNat 13 = c from by rw [← h13]; exact ofNat_toNat_char c]
  by_cases h20 : c.toNat < 0x20
  · have hesc : escapeChar c = '\\' :: 'u' :: toHex4 c.toNat := by
      unfold escapeChar
      rw [if_neg hbs, if_neg hq, if_neg h8, if_neg h9, if_neg h10, if_neg h12, if_neg h13,
        if_pos h20]
    rw [hesc, show ('\\' :: 'u' :: toHex4 c.toNat) ++ tail =
        '\\' :: 'u' :: (toHex4 c.toNat ++ tail) from by simp]
    rw [psbStep_u_bmp (by omega) (by omega) k tail, ofNat_toNat_char c]
  by_cases h7e : c.toNat ≤ 0x7e
  · have hesc : escapeChar c = [c] := by
      unfold escapeChar
      rw [if_neg hbs, if_neg hq, if_neg h8, if_neg h9, if_neg h10, if_neg h12, if_neg h13,
        if_neg h20, if_pos h7e]
    rw [hesc]
    exact psbStep_lit hq hbs h20 k tail
  by_cases hbmp : c.toNat < 0x10000
  · have hesc : escapeChar c = '\\' :: 'u' :: toHex4 c.toNat := by
      unfold escapeChar
      rw [if_neg hbs, if_neg hq, if_neg h8, if_neg h9, if_neg h10, if_neg h12, if_neg h13,
        if_neg h20, if_neg h7e, if_pos hbmp]
    have hscal := char_scalar c
    rw [hesc, show ('\\' :: 'u' :: toHex4 c.toNat) ++ tail =
        '\\' :: 'u' :: (toHex4 c.toNat ++ tail) from by simp]
    rw [psbStep_u_bmp (by omega) (by omega) k tail, ofNat_toNat_char c]
  · have hesc : escapeChar c =
        ('\\' :: 'u' :: toHex4 (0xd800 + (c.toNat - 0x10000) / 0x400)) ++
        ('\\' :: 'u' :: toHex4 (0xdc00 + (c.toNat - 0x10000) % 0x400)) := by
      unfold escapeChar
      rw [if_neg hbs, if_neg hq, if_neg h8, if_neg h9, if_neg h10, if_neg h12, if_neg h13,
        if_neg h20, if_neg h7e, if_neg hbmp]
    have hscal := char_scalar c
    rw [hesc, show (('\\' :: 'u' :: toHex4 (0xd800 + (c.toNat - 0x10000) / 0x400)) ++
        ('\\' :: 'u' :: toHex4 (0xdc00 + (c.toNat - 0x10000) % 0x400))) ++ tail =
        '\\' :: 'u' :: (toHex4 (0xd800 + (c.toNat - 0x10000) / 0x400) ++
          ('\\' :: 'u' :: (toHex4 (0xdc00 + (c.toNat - 0x10000) % 0x400) ++ tail))) from by simp]
    rw [psbStep_u_pair (by omega) (by omega) k tail, ofNat_toNat_char c]

/-- The string-body loop undoes the character-wise encoding. -/
theorem parseStringBody_flatMap (s : List Char) :
    ∀ fuel : Nat, s.length < fuel → ∀ rest : List Char,
      parseStringBody fuel (s.flatMap escapeChar ++ '"' :: rest) = some (s, rest) := by
  induction s with
  | nil =>
    intro fuel hf rest
    cases fuel with
    | zero => omega
    | succ f =>
      rw [show (([] : List Char).flatMap escapeChar ++ '"' :: rest) = '"' :: rest from by simp,
        parseStringBody_succ]
      exact psbStep_quote _ rest
  | cons c s ih =>
    intro fuel hf rest
    cases fuel with
    | zero => omega
    | succ f =>
      rw [show ((c :: s).flatMap escapeChar ++ '"' :: rest) =
          escapeChar c ++ (s.flatMap escapeChar ++ '"' :: rest) from by simp,
        parseStringBody_succ, psbStep_escapeChar c _ _,
        ih f (by simp at hf; omega) rest]

theorem two_le_encodeString_length (s : List Char) : 2 ≤ (encodeString s).length := by
  unfold encodeString
  simp

theorem length_le_flatMap_escape (s : List Char) :
    s.length ≤ (s.flatMap escapeChar).length := by
  induction s with
  | nil => simp
  | cons c s2 ih =>
    have := one_le_escapeChar_length c
    simp only [List.flatMap_cons, List.length_append, List.length_cons]
    omega

/-- `parseString` undoes `encodeString`. -/
theorem parseString_encodeString (s rest : List Char) :
    parseString (encodeString s ++ rest) = some (s, rest) := by
  have hshape : encodeString s ++ rest = '"' :: (s.flatMap escapeChar ++ '"' :: rest) := by
    unfold encodeString
    simp
  rw [hshape]
  simp only [parseString, ite_true]
  apply parseStringBody_flatMap
  have h1 := length_le_flatMap_escape s
  simp only [List.length_append, List.length_cons]
  omega

theorem parseElems_succ (fuel : Nat) (cs : List Char) :
    parseElems (fuel + 1) cs = parseElemsStep (parseElems fuel) cs := rfl

/-- The element loop undoes `joinComma` over encoded strings. -/
theorem parseElems_joinComma (L : List (List Char)) (hne : L ≠ []) :
    ∀ fuel : Nat, L.length ≤ fuel → ∀ rest : List Char,
      parseElems fuel (joinComma (L.map encodeString) ++ ']' :: rest) = some (L, rest) := by
  induction L with
  | nil => exact absurd rfl hne
  | cons a L2 ih =>
    intro fuel hf rest
    cases fuel with
    | zero => simp at hf
    | succ f =>
      rw [parseElems_succ]
      cases L2 with
      | nil =>
        rw [show joinComma ([a].map encodeString) = encodeString a from rfl]
        simp only [parseElemsStep, parseString_encodeString,
          (by decide : ¬(']' : Char) = ','), ite_false, ite_true]
      | cons b L3 =>
        rw [show joinComma ((a :: b :: L3).map encodeString) =
            encodeString a ++ ',' :: joinComma ((b :: L3).map encodeString) from rfl]
        rw [show (encodeString a ++ ',' :: joinComma ((b :: L3).map encodeString)) ++
            ']' :: rest =
            encodeString a ++ (',' :: (joinComma ((b :: L3).map encodeString) ++
              ']' :: rest)) from by simp]
        simp only [parseElemsStep, parseString_encodeString, ite_true,
          ih (by simp) f (by simp at hf ⊢; omega) rest]

theorem le_joinComma_length (M : List (List Char)) :
    M.length ≤ (joinComma (M.map encodeString)).length := by
  induction M with
  | nil => simp
  | cons a M2 ih =>
    cases M2 with
    | nil =>
      have := two_le_encodeString_length a
      simp only [List.map_cons, List.map_nil]
      rw [show joinComma [encodeString a] = encodeString a from rfl]
      simp only [List.length_cons, List.length_nil]
      omega
    | cons b M3 =>
      have := two_le_encodeString_length a
      rw [show joinComma ((a :: b :: M3).map encodeString) =
          encodeString a ++ ',' :: joinComma ((b :: M3).map encodeString) from rfl]
      simp only [List.length_append, List.length_cons] at ih ⊢
      omega

theorem map_mk_data (parts : List String) :
    ((parts.map String.data).map String.mk) = parts := by
  induction parts with
  | nil => rfl
  | cons p ps ih =>
    simp only [List.map_cons, ih]

/-- C10.  Db-key round trip: for every tuple of name parts,
`IvyName.from_db_key(n.db_key)` recovers exactly the parts, i.e. the compact
JSON db-key encoding decodes back to the same hierarchical name (in
particular it is injective).  Proved for all part lists, the non-empty ones
of actual `IvyName`s included. -/
theorem c10_db_key_round_trip (parts : List String) :
    from_db_key (db_key parts) = some parts := by
  cases hp : parts with
  | nil => rfl
  | cons p ps =>
    unfold from_db_key db_key
    rw [show (String.mk ('[' :: joinComma (((p :: ps).map String.data).map encodeString) ++
        [']'])).data =
        '[' :: joinComma (((p :: ps).map String.data).map encodeString) ++ [']'] from rfl]
    have hjoin : ∃ t : List Char,
        joinComma (((p :: ps).map String.data).map encodeString) = '"' :: t := by
      cases ps with
      | nil => exact ⟨p.data.flatMap escapeChar ++ ['"'], rfl⟩
      | cons q qs =>
        refine ⟨p.data.flatMap escapeChar ++ ['"'] ++
          (',' :: joinComma (((q :: qs).map String.data).map encodeString)), ?_⟩
        rw [show joinComma (((p :: q :: qs).map String.data).map encodeString) =
            encodeString p.data ++
              ',' :: joinComma (((q :: qs).map String.data).map encodeString) from rfl]
        simp [encodeString]
    obtain ⟨t, ht⟩ := hjoin
    have hlen := le_joinComma_length ((p :: ps).map String.data)
    have hJl : (joinComma (((p :: ps).map String.data).map encodeString)).length =
        t.length + 1 := by rw [ht]; rfl
    rw [hJl] at hlen
    have harr : parseArray
        ('[' :: joinComma (((p :: ps).map String.data).map encodeString) ++ [']']).length
        ('[' :: joinComma (((p :: ps).map String.data).map encodeString) ++ [']']) =
        some ((p :: ps).map String.data, []) := by
      rw [show ('[' :: joinComma (((p :: ps).map String.data).map encodeString) ++
          [']'] : List Char) = '[' :: ('"' :: t ++ [']']) from by rw [ht]; simp]
      simp only [parseArray, List.cons_append, ite_true,
        (by decide : ¬('"' : Char) = ']'), ite_false]
      rw [show ('"' : Char) :: (t ++ [']']) =
          joinComma (((p :: ps).map String.data).map encodeString) ++ ']' :: [] from by
        rw [ht]; rfl]
      apply parseElems_joinComma _ (by simp)
      simp only [List.length_map] at hlen
      simp only [List.length_cons, List.length_append, List.length_map,
        List.length_nil] at hlen ⊢
      omega
    rw [harr]
    rw [show (match some ((p :: ps).map String.data, ([] : List Char)) with
        | some (parts2, []) => some (parts2.map String.mk)
        | _ => none) =
        some (((p :: ps).map String.data).map String.mk) from rfl]
    rw [map_mk_data]

/-! ## Monotonicity of propagation on cross-free graphs (C1)

The counterexample above shows that monotonicity fails through cross
vertices: a cross vertex is a source initialized to `pass` and receives the
entity value only once the entity changes, so a run in which the entity stays
`unreachable` keeps a strictly larger cross value than a run in which it
moves.  On graphs without entity/cross pairs the loop is monotone in the
task seeding: every state the lower run reaches stays pointwise below the
completed final map of the higher run, because that final map is a fixpoint
of the (monotone) recomputation combinators at every vertex with in-edges. -/

theorem statusLe_iff {a b : Status} : statusLe a b = true ↔ status_index a ≤ status_index b := by
  simp [statusLe]

theorem statusLe_bot (a : Status) : statusLe .unreachable a = true := by
  cases a <;> decide

theorem status_and_eq (l : List Status) :
    status_and l = statusOfIndex (l.foldr (fun s m => min (status_index s) m) 8) := rfl

theorem status_or_eq (l : List Status) :
    status_or l = statusOfIndex (l.foldr (fun s m => max (status_index s) m) 0) := rfl

theorem statusOfIndex_zero : statusOfIndex 0 = .unreachable := rfl

theorem status_index_eq_zero {a : Status} : status_index a = 0 ↔ a = .unreachable := by
  cases a <;> simp [status_index]

theorem status_index_statusOfIndex : ∀ i : Nat, status_index (statusOfIndex i) = min i 8
  | 0 => rfl
  | 1 => rfl
  | 2 => rfl
  | 3 => rfl
  | 4 => rfl
  | 5 => rfl
  | 6 => rfl
  | 7 => rfl
  | 8 => rfl
  | n + 9 => by
    show status_index (status_list.getD (n + 9) .pass) = min (n + 9) 8
    rw [List.getD_eq_default _ _ (by show status_list.length ≤ n + 9; simp [status_list])]
    show 8 = min (n + 9) 8
    rw [Nat.min_def]
    split
    · omega
    · rfl

theorem foldr_min_le {u v : Nat → Status} (idx : List Nat)
    (h : ∀ j ∈ idx, status_index (u j) ≤ status_index (v j)) :
    (idx.map u).foldr (fun s m => min (status_index s) m) 8 ≤
      (idx.map v).foldr (fun s m => min (status_index s) m) 8 := by
  induction idx with
  | nil => exact Nat.le_refl _
  | cons a l ih =>
    simp only [List.map_cons, List.foldr_cons]
    have h1 := h a (by simp)
    have h2 := ih (fun j hj => h j (by simp [hj]))
    exact min_le_min h1 h2

theorem foldr_max_le {u v : Nat → Status} (idx : List Nat)
    (h : ∀ j ∈ idx, status_index (u j) ≤ status_index (v j)) :
    (idx.map u).foldr (fun s m => max (status_index s) m) 0 ≤
      (idx.map v).foldr (fun s m => max (status_index s) m) 0 := by
  induction idx with
  | nil => exact Nat.le_refl _
  | cons a l ih =>
    simp only [List.map_cons, List.foldr_cons]
    have h1 := h a (by simp)
    have h2 := ih (fun j hj => h j (by simp [hj]))
    exact max_le_max h1 h2

/-- The recomputation a pop of the dirty queue performs at vertex `i`:
`status_or` of the in-neighbour values for entity vertices, `status_and`
otherwise. -/
def combAt (g : SGraph) (u : Nat → Status) (i : Nat) : Status :=
  let ins := (g.in_edges_list.getD i []).map u
  if typeOf g i = .entity then status_or ins else status_and ins

theorem combAt_mono {g : SGraph} {u v : Nat → Status}
    (h : ∀ j, statusLe (u j) (v j) = true) (i : Nat) :
    statusLe (combAt g u i) (combAt g v i) = true := by
  unfold combAt
  have h2 : ∀ j ∈ g.in_edges_list.getD i [], status_index (u j) ≤ status_index (v j) :=
    fun j _ => statusLe_iff.mp (h j)
  by_cases ht : typeOf g i = .entity
  · rw [if_pos ht, if_pos ht, statusLe_iff, status_or_eq, status_or_eq,
      status_index_statusOfIndex, status_index_statusOfIndex]
    exact min_le_min (foldr_max_le _ h2) (Nat.le_refl 8)
  · rw [if_neg ht, if_neg ht, statusLe_iff, status_and_eq, status_and_eq,
      status_index_statusOfIndex, status_index_statusOfIndex]
    exact min_le_min (foldr_min_le _ h2) (Nat.le_refl 8)

theorem foldr_max_zero {u : Nat → Status} (idx : List Nat)
    (h : ∀ j ∈ idx, status_index (u j) = 0) :
    (idx.map u).foldr (fun s m => max (status_index s) m) 0 = 0 := by
  induction idx with
  | nil => rfl
  | cons a l ih =>
    simp only [List.map_cons, List.foldr_cons]
    have h1 := h a (by simp)
    have h2 := ih (fun j hj => h j (by simp [hj]))
    rw [h1, h2]
    exact max_self 0

theorem foldr_min_zero {u : Nat → Status} (a : Nat) (l : List Nat)
    (h : status_index (u a) = 0) :
    ((a :: l).map u).foldr (fun s m => min (status_index s) m) 8 = 0 := by
  simp only [List.map_cons, List.foldr_cons]
  rw [h]
  exact Nat.zero_min _

/-- At a vertex with in-edges whose in-values are all `unreachable`, the
recomputation yields `unreachable`. -/
theorem combAt_unr {g : SGraph} {u : Nat → Status} {i : Nat}
    (h : ∀ j ∈ g.in_edges_list.getD i [], u j = .unreachable)
    (hne : g.in_edges_list.getD i [] ≠ []) : combAt g u i = .unreachable := by
  unfold combAt
  have h0 : ∀ j ∈ g.in_edges_list.getD i [], status_index (u j) = 0 :=
    fun j hj => status_index_eq_zero.mpr (h j hj)
  by_cases ht : typeOf g i = .entity
  · rw [if_pos ht, status_or_eq, foldr_max_zero _ h0, statusOfIndex_zero]
  · rw [if_neg ht, status_and_eq]
    cases hins : g.in_edges_list.getD i [] with
    | nil => exact absurd hins hne
    | cons a l =>
      rw [foldr_min_zero a l (h0 a (by rw [hins]; simp)), statusOfIndex_zero]

/-- Further structural facts `IvyStatusGraph.__init__` guarantees, used by
the monotonicity theorem: the in-edge array matches the vertex count, the in-
and out-edge arrays are mutually dual (an in-edge of `i` from `j` is an
out-edge of `j` into `i` and conversely), no vertex lists itself among its
in-edges, and the recorded source and task keys really have no in-edges. -/
def dualCheck (g : SGraph) : Bool :=
  let n := g.order_list.length
  decide (g.in_edges_list.length = n) &&
  ((List.range n).all fun i =>
    (g.in_edges_list.getD i []).all fun j =>
      decide (j < n) && decide (j ≠ i) && decide (i ∈ g.out_edges_list.getD j [])) &&
  ((List.range n).all fun j =>
    (g.out_edges_list.getD j []).all fun i =>
      decide (j ∈ g.in_edges_list.getD i [])) &&
  (g.non_entity_sources.all fun k =>
    match alGet g.order k with
    | some i => decide (g.in_edges_list.getD i [] = [])
    | none => true) &&
  (g.tasks.all fun k =>
    match alGet g.order k with
    | some i => decide (g.in_edges_list.getD i [] = [])
    | none => true)

/-- A graph with no entity/cross pair: every `cross_order_map` entry is
`none`, so the cross flush never copies anything. -/
def noCross (g : SGraph) : Bool := g.cross_order_map.all Option.isNone

theorem all_isNone_getD {l : List (Option Nat)} (h : l.all Option.isNone = true) :
    ∀ i : Nat, l.getD i none = none := by
  induction l with
  | nil => intro i; rfl
  | cons a t ih =>
    simp only [List.all_cons, Bool.and_eq_true] at h
    intro i
    cases i with
    | zero =>
      show a = none
      cases a with
      | none => rfl
      | some x => simp [Option.isNone] at h
    | succ i2 => exact ih h.2 i2

theorem noCross_getD {g : SGraph} (h : noCross g = true) (i : Nat) :
    g.cross_order_map.getD i none = none := all_isNone_getD h i

theorem dual_ins_len {g : SGraph} (hd : dualCheck g = true) :
    g.in_edges_list.length = g.order_list.length := by
  unfold dualCheck at hd
  simp only [Bool.and_eq_true, decide_eq_true_eq] at hd
  exact hd.1.1.1.1

theorem dual_ins_sub {g : SGraph} (hd : dualCheck g = true) {i j : Nat}
    (h : j ∈ g.in_edges_list.getD i []) :
    j < g.order_list.length ∧ j ≠ i ∧ i ∈ g.out_edges_list.getD j [] := by
  have hlen := dual_ins_len hd
  unfold dualCheck at hd
  simp only [Bool.and_eq_true, List.all_eq_true, decide_eq_true_eq] at hd
  obtain ⟨⟨⟨⟨_, hin⟩, _⟩, _⟩, _⟩ := hd
  have hi : i < g.order_list.length := by
    by_contra hge
    rw [List.getD_eq_default _ _ (by omega : g.in_edges_list.length ≤ i)] at h
    simp at h
  have := hin i (List.mem_range.mpr hi) j h
  exact ⟨this.1.1, this.1.2, this.2⟩

theorem dual_ins_nonempty_lt {g : SGraph} (hd : dualCheck g = true) {i : Nat}
    (h : g.in_edges_list.getD i [] ≠ []) : i < g.order_list.length := by
  by_contra hge
  rw [List.getD_eq_default _ _ (by rw [dual_ins_len hd]; omega)] at h
  exact h rfl

theorem dual_out_sub {g : SGraph} (hwf : wfCheck g = true) (hd : dualCheck g = true)
    {j i : Nat} (h : i ∈ g.out_edges_list.getD j []) :
    j ∈ g.in_edges_list.getD i [] := by
  have holen : g.out_edges_list.length = g.order_list.length := by
    unfold wfCheck at hwf
    simp only [Bool.and_eq_true, decide_eq_true_eq] at hwf
    exact hwf.1.1.1.1.1.1.2
  unfold dualCheck at hd
  simp only [Bool.and_eq_true, List.all_eq_true, decide_eq_true_eq] at hd
  obtain ⟨⟨⟨⟨_, _⟩, hout⟩, _⟩, _⟩ := hd
  have hj : j < g.order_list.length := by
    by_contra hge
    rw [List.getD_eq_default _ _ (by omega : g.out_edges_list.length ≤ j)] at h
    simp at h
  exact hout j (List.mem_range.mpr hj) i h

theorem dual_nes_src {g : SGraph} (hd : dualCheck g = true) {k : StatusKey} {i : Nat}
    (hk : k ∈ g.non_entity_sources) (ha : alGet g.order k = some i) :
    g.in_edges_list.getD i [] = [] := by
  unfold dualCheck at hd
  simp only [Bool.and_eq_true, List.all_eq_true, decide_eq_true_eq] at hd
  obtain ⟨⟨⟨⟨_, _⟩, _⟩, hnes⟩, _⟩ := hd
  have := hnes k hk
  rw [ha] at this
  simpa using this

theorem dual_tasks_src {g : SGraph} (hd : dualCheck g = true) {k : StatusKey} {i : Nat}
    (hk : k ∈ g.tasks) (ha : alGet g.order k = some i) :
    g.in_edges_list.getD i [] = [] := by
  unfold dualCheck at hd
  simp only [Bool.and_eq_true, List.all_eq_true, decide_eq_true_eq] at hd
  obtain ⟨⟨⟨⟨_, _⟩, _⟩, _⟩, htk⟩ := hd
  have := htk k hk
  rw [ha] at this
  simpa using this

/-! ### Queue and dirty-flag plumbing -/

/-- Every vertex whose dirty flag is set is in the dirty queue. -/
def flagQueueInv (s : SMap) : Prop :=
  ∀ j, s.dirty.getD j false = true → j ∈ s.dirty_queue

theorem pushTargets_queue_sub {s : SMap} {l : List Nat} {x : Nat}
    (h : x ∈ s.dirty_queue) : x ∈ (pushTargets s l).dirty_queue := by
  induction l generalizing s with
  | nil => exact h
  | cons a l ih =>
    rw [pushTargets_cons]
    by_cases ha : s.dirty.getD a false
    · rw [if_pos ha]
      exact ih h
    · rw [if_neg ha]
      exact ih (mem_insertSorted.mpr (Or.inr h))

theorem pushDirty_flagQueue {s : SMap} {j : Nat} (h : flagQueueInv s) :
    flagQueueInv (pushDirty s j) := by
  intro x hx
  show x ∈ insertSorted j s.dirty_queue
  by_cases hxj : x = j
  · exact mem_insertSorted.mpr (Or.inl hxj)
  · have hx2 : s.dirty.getD x false = true := by
      have hx3 : (s.dirty.set j true).getD x false = true := hx
      rwa [getD_set_other hxj] at hx3
    exact mem_insertSorted.mpr (Or.inr (h x hx2))

theorem pushTargets_flagQueue {s : SMap} {l : List Nat} (h : flagQueueInv s) :
    flagQueueInv (pushTargets s l) := by
  induction l generalizing s with
  | nil => exact h
  | cons a l ih =>
    rw [pushTargets_cons]
    by_cases ha : s.dirty.getD a false
    · rw [if_pos ha]
      exact ih h
    · rw [if_neg ha]
      exact ih (pushDirty_flagQueue h)

theorem pushTargets_covers {s : SMap} {l : List Nat} (h : flagQueueInv s) :
    ∀ j ∈ l, j ∈ (pushTargets s l).dirty_queue := by
  induction l generalizing s with
  | nil =>
    intro j hj
    simp at hj
  | cons a l ih =>
    intro j hj
    rw [pushTargets_cons]
    by_cases ha : s.dirty.getD a false
    · rw [if_pos ha]
      rcases List.mem_cons.mp hj with hja | hjl
      · subst hja
        exact pushTargets_queue_sub (h j ha)
      · exact ih h j hjl
    · rw [if_neg ha]
      rcases List.mem_cons.mp hj with hja | hjl
      · subst hja
        exact pushTargets_queue_sub (mem_insertSorted.mpr (Or.inl rfl))
      · exact ih (pushDirty_flagQueue h) j hjl

theorem setStatusIdx_queue_sub {g : SGraph} {s : SMap} {i : Nat} {v : Status} {x : Nat}
    (h : x ∈ s.dirty_queue) : x ∈ (setStatusIdx g s i v).dirty_queue := by
  by_cases he : statusAt s i = v
  · rw [setStatusIdx_eq_of_eq he]
    exact h
  · rw [setStatusIdx_eq_of_ne he]
    apply pushTargets_queue_sub
    show x ∈ (markState g s i).dirty_queue
    rw [markState_queue]
    exact h

theorem setStatusIdx_flagQueue {g : SGraph} {s : SMap} {i : Nat} {v : Status}
    (h : flagQueueInv s) : flagQueueInv (setStatusIdx g s i v) := by
  by_cases he : statusAt s i = v
  · rw [setStatusIdx_eq_of_eq he]
    exact h
  · rw [setStatusIdx_eq_of_ne he]
    apply pushTargets_flagQueue
    intro x hx
    rw [show ({ markState g s i with
        current_status := (markState g s i).current_status.set i v } : SMap).dirty =
        (markState g s i).dirty from rfl, markState_dirty] at hx
    rw [show ({ markState g s i with
        current_status := (markState g s i).current_status.set i v } : SMap).dirty_queue =
        (markState g s i).dirty_queue from rfl, markState_queue]
    exact h x hx

theorem setStatusIdx_covers {g : SGraph} {s : SMap} {i : Nat} {v : Status}
    (hfq : flagQueueInv s) (hne : statusAt s i ≠ v) :
    ∀ j ∈ g.out_edges_list.getD i [], j ∈ (setStatusIdx g s i v).dirty_queue := by
  rw [setStatusIdx_eq_of_ne hne]
  apply pushTargets_covers
  intro x hx
  rw [show ({ markState g s i with
      current_status := (markState g s i).current_status.set i v } : SMap).dirty =
      (markState g s i).dirty from rfl, markState_dirty] at hx
  rw [show ({ markState g s i with
      current_status := (markState g s i).current_status.set i v } : SMap).dirty_queue =
      (markState g s i).dirty_queue from rfl, markState_queue]
  exact hfq x hx

/-- A changed write never removes entries from the dirty queue. -/
theorem setStatusIdx_statusAt_ne {g : SGraph} {s : SMap} {i : Nat} {v : Status}
    {j : Nat} (hj : j ≠ i) : statusAt (setStatusIdx g s i v) j = statusAt s j := by
  by_cases he : statusAt s i = v
  · rw [setStatusIdx_eq_of_eq he]
  · rw [setStatusIdx_eq_of_ne he]
    unfold statusAt
    rw [pushTargets_current]
    show ((markState g s i).current_status.set i v).getD j .unreachable = _
    rw [getD_set_other hj, markState_current]

theorem setStatusIdx_statusAt_oob {g : SGraph} {s : SMap} {i : Nat} {v : Status}
    (hoob : s.current_status.length ≤ i) (j : Nat) :
    statusAt (setStatusIdx g s i v) j = statusAt s j := by
  by_cases he : statusAt s i = v
  · rw [setStatusIdx_eq_of_eq he]
  · rw [setStatusIdx_eq_of_ne he]
    unfold statusAt
    rw [pushTargets_current]
    show ((markState g s i).current_status.set i v).getD j .unreachable = _
    rw [List.set_eq_of_length_le (by rw [markState_current]; exact hoob), markState_current]

/-! ### The fixpoint invariant of the inner loop

Every vertex with in-edges is either queued for recomputation or already
holds the value its combinator yields from the current in-neighbour values;
when the queue drains, the map is a fixpoint of the combinators. -/

theorem popStep_nil {g : SGraph} {s : SMap} (h : s.dirty_queue = []) : popStep g s = s := by
  unfold popStep
  rw [h]

theorem popStep_eq {g : SGraph} {s : SMap} {i : Nat} {rest : List Nat}
    (h : s.dirty_queue = i :: rest) :
    popStep g s =
      setStatusIdx g { s with dirty_queue := rest, dirty := s.dirty.set i false } i
        (combAt g (statusAt s) i) := by
  unfold popStep
  rw [h]
  rfl

/-- Basic state invariants: array length, flag/queue coherence, queued
vertices have in-edges, the cross-dirty list stays empty (no cross pairs). -/
def BInv (g : SGraph) (s : SMap) : Prop :=
  s.current_status.length = g.order_list.length ∧
  flagQueueInv s ∧
  (∀ j ∈ s.dirty_queue, g.in_edges_list.getD j [] ≠ []) ∧
  s.cross_dirty_list = []

/-- The dirty-or-consistent invariant. -/
def consInv (g : SGraph) (s : SMap) : Prop :=
  ∀ i, g.in_edges_list.getD i [] ≠ [] →
    i ∈ s.dirty_queue ∨ statusAt s i = combAt g (statusAt s) i

/-- Source vertices (no in-edges) hold the reference valuation `r`. -/
def srcHold (g : SGraph) (r : Nat → Status) (s : SMap) : Prop :=
  ∀ j, g.in_edges_list.getD j [] = [] → statusAt s j = r j

/-- The bundle carried through the higher run. -/
def MInv (g : SGraph) (r : Nat → Status) (s : SMap) : Prop :=
  BInv g s ∧ consInv g s ∧ srcHold g r s

theorem setStatusIdx_BInv {g : SGraph} {s : SMap} (hwf : wfCheck g = true)
    (hd : dualCheck g = true) (hnc : noCross g = true) (hB : BInv g s) (i : Nat)
    (v : Status) : BInv g (setStatusIdx g s i v) := by
  obtain ⟨hlen, hfq, hqd, hcl⟩ := hB
  refine ⟨?_, setStatusIdx_flagQueue hfq, ?_, ?_⟩
  · rw [setStatusIdx_statusAt_length, hlen]
  · intro j hj
    rcases setStatusIdx_queue_mem hj with h1 | h1
    · exact hqd j h1
    · exact List.ne_nil_of_mem (dual_out_sub hwf hd h1)
  · rw [(setStatusIdx_nomark (noCross_getD hnc i)).2, hcl]

theorem combAt_congr {g : SGraph} {u v : Nat → Status} {i : Nat}
    (h : ∀ x ∈ g.in_edges_list.getD i [], u x = v x) : combAt g u i = combAt g v i := by
  unfold combAt
  rw [List.map_congr_left h]

/-- A write at `i` keeps every other in-edged vertex dirty-or-consistent:
its consumers get queued, untouched vertices keep value and combinator. -/
theorem setStatusIdx_consSide {g : SGraph} {s : SMap} {i : Nat} {v : Status}
    (hd : dualCheck g = true) (hfq : flagQueueInv s) {j : Nat} (hj : j ≠ i)
    (hcons : j ∈ s.dirty_queue ∨ statusAt s j = combAt g (statusAt s) j) :
    j ∈ (setStatusIdx g s i v).dirty_queue ∨
      statusAt (setStatusIdx g s i v) j = combAt g (statusAt (setStatusIdx g s i v)) j := by
  by_cases he : statusAt s i = v
  · rw [setStatusIdx_eq_of_eq he]
    exact hcons
  by_cases hmem : i ∈ g.in_edges_list.getD j []
  · left
    exact setStatusIdx_covers hfq he j (dual_ins_sub hd hmem).2.2
  · rcases hcons with hq | hc
    · exact Or.inl (setStatusIdx_queue_sub hq)
    · right
      have hcomb : combAt g (statusAt (setStatusIdx g s i v)) j =
          combAt g (statusAt s) j := by
        apply combAt_congr
        intro x hx
        have hxi : x ≠ i := fun hh => hmem (hh ▸ hx)
        exact setStatusIdx_statusAt_ne hxi
      rw [setStatusIdx_statusAt_ne hj, hcomb, hc]

theorem popStep_MInv {g : SGraph} {r : Nat → Status} {s : SMap}
    (hwf : wfCheck g = true) (hd : dualCheck g = true) (hnc : noCross g = true)
    (hM : MInv g r s) : MInv g r (popStep g s) := by
  obtain ⟨hB, hcons, hsrc⟩ := hM
  cases hq : s.dirty_queue with
  | nil =>
    rw [popStep_nil hq]
    exact ⟨hB, hcons, hsrc⟩
  | cons i rest =>
    obtain ⟨hlen, hfq, hqd, hcl⟩ := hB
    have hins : g.in_edges_list.getD i [] ≠ [] := hqd i (by rw [hq]; simp)
    have hi : i < g.order_list.length := dual_ins_nonempty_lt hd hins
    have hno : i ∉ g.in_edges_list.getD i [] := fun hmem => (dual_ins_sub hd hmem).2.1 rfl
    rw [popStep_eq hq]
    set s1 : SMap := { s with dirty_queue := rest, dirty := s.dirty.set i false } with hs1
    have hB1 : BInv g s1 := by
      refine ⟨hlen, ?_, ?_, hcl⟩
      · intro x hx
        by_cases hxi : x = i
        · subst hxi
          exfalso
          by_cases hlt : x < s.dirty.length
          · rw [show s1.dirty = s.dirty.set x false from rfl, getD_set_self hlt] at hx
            exact Bool.noConfusion hx
          · rw [show s1.dirty = s.dirty.set x false from rfl,
              List.set_eq_of_length_le (by omega),
              List.getD_eq_default _ _ (by omega)] at hx
            exact Bool.noConfusion hx
        · have hx2 : s.dirty.getD x false = true := by
            rw [show s1.dirty = s.dirty.set i false from rfl, getD_set_other hxi] at hx
            exact hx
          have := hfq x hx2
          rw [hq] at this
          rcases List.mem_cons.mp this with h1 | h1
          · exact absurd h1 hxi
          · exact h1
      · intro j hjq
        exact hqd j (by rw [hq]; exact List.mem_cons_of_mem _ hjq)
    refine ⟨setStatusIdx_BInv hwf hd hnc hB1 i _, ?_, ?_⟩
    · intro j hjins
      by_cases hji : j = i
      · subst hji
        right
        have hstAfter : statusAt (setStatusIdx g s1 j (combAt g (statusAt s) j)) j =
            combAt g (statusAt s) j := by
          rw [setStatusIdx_statusAt (show j < s1.current_status.length from by
            show j < s.current_status.length
            omega), if_pos rfl]
        have hcombAfter :
            combAt g (statusAt (setStatusIdx g s1 j (combAt g (statusAt s) j))) j =
            combAt g (statusAt s) j := by
          apply combAt_congr
          intro x hx
          have hxi : x ≠ j := fun hh => hno (hh ▸ hx)
          rw [setStatusIdx_statusAt_ne hxi]
          rfl
        rw [hstAfter, hcombAfter]
      · have hprior : j ∈ s1.dirty_queue ∨ statusAt s1 j = combAt g (statusAt s1) j := by
          rcases hcons j hjins with hq2 | hc2
          · rw [hq] at hq2
            rcases List.mem_cons.mp hq2 with h1 | h1
            · exact absurd h1 hji
            · exact Or.inl h1
          · exact Or.inr hc2
        exact setStatusIdx_consSide hd hB1.2.1 hji hprior
    · intro j hjsrc
      have hji : j ≠ i := fun hh => hins (hh ▸ hjsrc)
      rw [setStatusIdx_statusAt_ne hji]
      exact hsrc j hjsrc

theorem iterateInner_MInv {g : SGraph} {r : Nat → Status}
    (hwf : wfCheck g = true) (hd : dualCheck g = true) (hnc : noCross g = true)
    (fuel : Nat) : ∀ s : SMap, MInv g r s → MInv g r (iterateInner g fuel s) := by
  induction fuel with
  | zero => exact fun s h => h
  | succ fuel ih =>
    intro s h
    unfold iterateInner
    cases hque : s.dirty_queue with
    | nil => exact h
    | cons i rest => exact ih _ (popStep_MInv hwf hd hnc h)

theorem MInv_crossnil {g : SGraph} {r : Nat → Status} {s : SMap}
    (h : MInv g r s) : MInv g r { s with cross_dirty_list := [] } := by
  obtain ⟨⟨h1, h2, h3, _⟩, h5, h6⟩ := h
  exact ⟨⟨h1, h2, h3, rfl⟩, h5, h6⟩

theorem iterate_MInv {g : SGraph} {r : Nat → Status}
    (hwf : wfCheck g = true) (hd : dualCheck g = true) (hnc : noCross g = true) :
    ∀ (fo fi : Nat) (s : SMap), MInv g r s → MInv g r (iterate g fo fi s) := by
  intro fo
  induction fo with
  | zero =>
    intro fi s h
    exact h
  | succ fo ih =>
    intro fi s h
    simp only [iterate]
    by_cases hc : s.dirty_queue = [] ∧ s.cross_dirty_list = []
    · rw [if_pos hc]
      exact h
    · rw [if_neg hc]
      have h1 := iterateInner_MInv hwf hd hnc fi s h
      by_cases hq2 : (iterateInner g fi s).dirty_queue = []
      · rw [if_pos hq2]
        have hcl : (iterateInner g fi s).cross_dirty_list = [] := h1.1.2.2.2
        rw [hcl, List.foldl_nil]
        exact ih fi _ (MInv_crossnil h1)
      · rw [if_neg hq2]
        exact h1

/-! ### The lower run stays below the completed higher run -/

/-- Pointwise domination of a state by a reference valuation. -/
def leMapF (s : SMap) (f : Nat → Status) : Prop :=
  ∀ i, statusLe (statusAt s i) (f i) = true

/-- The bundle carried through the lower run, relative to a combinator
fixpoint `f`. -/
def PInv (g : SGraph) (f : Nat → Status) (s : SMap) : Prop :=
  BInv g s ∧ leMapF s f

theorem popAux_BInv {g : SGraph} {s : SMap} {i : Nat} {rest : List Nat}
    (hq : s.dirty_queue = i :: rest) (hB : BInv g s) :
    BInv g { s with dirty_queue := rest, dirty := s.dirty.set i false } := by
  obtain ⟨hlen, hfq, hqd, hcl⟩ := hB
  refine ⟨hlen, ?_, ?_, hcl⟩
  · intro x hx
    by_cases hxi : x = i
    · subst hxi
      exfalso
      by_cases hlt : x < s.dirty.length
      · rw [show ({ s with dirty_queue := rest, dirty := s.dirty.set x false } : SMap).dirty =
          s.dirty.set x false from rfl, getD_set_self hlt] at hx
        exact Bool.noConfusion hx
      · rw [show ({ s with dirty_queue := rest, dirty := s.dirty.set x false } : SMap).dirty =
          s.dirty.set x false from rfl, List.set_eq_of_length_le (by omega),
          List.getD_eq_default _ _ (by omega)] at hx
        exact Bool.noConfusion hx
    · have hx2 : s.dirty.getD x false = true := by
        rw [show ({ s with dirty_queue := rest, dirty := s.dirty.set i false } : SMap).dirty =
          s.dirty.set i false from rfl, getD_set_other hxi] at hx
        exact hx
      have := hfq x hx2
      rw [hq] at this
      rcases List.mem_cons.mp this with h1 | h1
      · exact absurd h1 hxi
      · exact h1
  · intro j hjq
    exact hqd j (by rw [hq]; exact List.mem_cons_of_mem _ hjq)

theorem popStep_PInv {g : SGraph} {f : Nat → Status} {s : SMap}
    (hwf : wfCheck g = true) (hd : dualCheck g = true) (hnc : noCross g = true)
    (hconsF : ∀ i, g.in_edges_list.getD i [] ≠ [] → f i = combAt g f i)
    (hP : PInv g f s) : PInv g f (popStep g s) := by
  obtain ⟨hB, hle⟩ := hP
  cases hq : s.dirty_queue with
  | nil =>
    rw [popStep_nil hq]
    exact ⟨hB, hle⟩
  | cons i rest =>
    have hins : g.in_edges_list.getD i [] ≠ [] := hB.2.2.1 i (by rw [hq]; simp)
    have hi : i < g.order_list.length := dual_ins_nonempty_lt hd hins
    have hlen := hB.1
    rw [popStep_eq hq]
    set s1 : SMap := { s with dirty_queue := rest, dirty := s.dirty.set i false } with hs1
    have hB1 : BInv g s1 := popAux_BInv hq hB
    refine ⟨setStatusIdx_BInv hwf hd hnc hB1 i _, ?_⟩
    intro x
    by_cases hxi : x = i
    · subst hxi
      rw [setStatusIdx_statusAt (show x < s1.current_status.length from by
        show x < s.current_status.length
        omega), if_pos rfl, hconsF x hins]
      exact combAt_mono hle x
    · rw [setStatusIdx_statusAt_ne hxi]
      exact hle x

theorem iterateInner_PInv {g : SGraph} {f : Nat → Status}
    (hwf : wfCheck g = true) (hd : dualCheck g = true) (hnc : noCross g = true)
    (hconsF : ∀ i, g.in_edges_list.getD i [] ≠ [] → f i = combAt g f i)
    (fuel : Nat) : ∀ s : SMap, PInv g f s → PInv g f (iterateInner g fuel s) := by
  induction fuel with
  | zero => exact fun s h => h
  | succ fuel ih =>
    intro s h
    unfold iterateInner
    cases hque : s.dirty_queue with
    | nil => exact h
    | cons i rest => exact ih _ (popStep_PInv hwf hd hnc hconsF h)

theorem PInv_crossnil {g : SGraph} {f : Nat → Status} {s : SMap}
    (h : PInv g f s) : PInv g f { s with cross_dirty_list := [] } := by
  obtain ⟨⟨h1, h2, h3, _⟩, h5⟩ := h
  exact ⟨⟨h1, h2, h3, rfl⟩, h5⟩

theorem iterate_PInv {g : SGraph} {f : Nat → Status}
    (hwf : wfCheck g = true) (hd : dualCheck g = true) (hnc : noCross g = true)
    (hconsF : ∀ i, g.in_edges_list.getD i [] ≠ [] → f i = combAt g f i) :
    ∀ (fo fi : Nat) (s : SMap), PInv g f s → PInv g f (iterate g fo fi s) := by
  intro fo
  induction fo with
  | zero =>
    intro fi s h
    exact h
  | succ fo ih =>
    intro fi s h
    simp only [iterate]
    by_cases hc : s.dirty_queue = [] ∧ s.cross_dirty_list = []
    · rw [if_pos hc]
      exact h
    · rw [if_neg hc]
      have h1 := iterateInner_PInv hwf hd hnc hconsF fi s h
      by_cases hq2 : (iterateInner g fi s).dirty_queue = []
      · rw [if_pos hq2]
        have hcl : (iterateInner g fi s).cross_dirty_list = [] := h1.1.2.2.2
        rw [hcl, List.foldl_nil]
        exact ih fi _ (PInv_crossnil h1)
      · rw [if_neg hq2]
        exact h1

/-! ### The initial states -/

theorem setStatus_none {g : SGraph} {s : SMap} {key : StatusKey} {v : Status}
    (h : alGet g.order key = none) : setStatus g s key v = s := by
  unfold setStatus
  rw [h]

theorem setStatus_some {g : SGraph} {s : SMap} {key : StatusKey} {v : Status} {i : Nat}
    (h : alGet g.order key = some i) : setStatus g s key v = setStatusIdx g s i v := by
  unfold setStatus
  rw [h]

theorem setStatus_length {g : SGraph} {s : SMap} {key : StatusKey} {v : Status} :
    (setStatus g s key v).current_status.length = s.current_status.length := by
  cases h : alGet g.order key with
  | none => rw [setStatus_none h]
  | some i =>
    rw [setStatus_some h]
    exact setStatusIdx_statusAt_length

/-- The generic seeding fold: write `w k` onto every key of `keys`. -/
def foldSet (g : SGraph) (w : StatusKey → Status) (keys : List StatusKey) (s : SMap) : SMap :=
  keys.foldl (fun s k => setStatus g s k (w k)) s

theorem foldSet_cons (g : SGraph) (w : StatusKey → Status) (k : StatusKey)
    (ks : List StatusKey) (s : SMap) :
    foldSet g w (k :: ks) s = foldSet g w ks (setStatus g s k (w k)) := rfl

theorem foldSet_length {g : SGraph} {w : StatusKey → Status} :
    ∀ (keys : List StatusKey) (s : SMap),
      (foldSet g w keys s).current_status.length = s.current_status.length := by
  intro keys
  induction keys with
  | nil => exact fun s => rfl
  | cons k ks ih =>
    intro s
    rw [foldSet_cons, ih, setStatus_length]

theorem setStatus_BInv {g : SGraph} {s : SMap} (hwf : wfCheck g = true)
    (hd : dualCheck g = true) (hnc : noCross g = true) (hB : BInv g s)
    (key : StatusKey) (v : Status) : BInv g (setStatus g s key v) := by
  cases h : alGet g.order key with
  | none =>
    rw [setStatus_none h]
    exact hB
  | some i =>
    rw [setStatus_some h]
    exact setStatusIdx_BInv hwf hd hnc hB i v

theorem foldSet_BInv {g : SGraph} {w : StatusKey → Status}
    (hwf : wfCheck g = true) (hd : dualCheck g = true) (hnc : noCross g = true) :
    ∀ (keys : List StatusKey) (s : SMap), BInv g s → BInv g (foldSet g w keys s) := by
  intro keys
  induction keys with
  | nil => exact fun s h => h
  | cons k ks ih =>
    intro s h
    rw [foldSet_cons]
    exact ih _ (setStatus_BInv hwf hd hnc h k (w k))

theorem setStatusIdx_consInv_src {g : SGraph} {s : SMap} {i : Nat} {v : Status}
    (hd : dualCheck g = true) (hfq : flagQueueInv s)
    (hins0 : g.in_edges_list.getD i [] = []) (hc : consInv g s) :
    consInv g (setStatusIdx g s i v) := by
  intro j hjins
  have hji : j ≠ i := fun hh => hjins (hh ▸ hins0)
  exact setStatusIdx_consSide hd hfq hji (hc j hjins)

/-- Seeding source keys keeps the dirty-or-consistent invariant. -/
theorem foldSet_consInv {g : SGraph} {w : StatusKey → Status}
    (hwf : wfCheck g = true) (hd : dualCheck g = true) (hnc : noCross g = true)
    (keys : List StatusKey)
    (hsrc : ∀ k ∈ keys, ∀ i, alGet g.order k = some i → g.in_edges_list.getD i [] = []) :
    ∀ s : SMap, BInv g s → consInv g s →
      BInv g (foldSet g w keys s) ∧ consInv g (foldSet g w keys s) := by
  induction keys with
  | nil => exact fun s hB hc => ⟨hB, hc⟩
  | cons k ks ih =>
    intro s hB hc
    rw [foldSet_cons]
    cases h : alGet g.order k with
    | none =>
      rw [setStatus_none h]
      exact ih (fun k2 hk2 => hsrc k2 (List.mem_cons_of_mem _ hk2)) s hB hc
    | some i =>
      rw [setStatus_some h]
      exact ih (fun k2 hk2 => hsrc k2 (List.mem_cons_of_mem _ hk2)) _
        (setStatusIdx_BInv hwf hd hnc hB i (w k))
        (setStatusIdx_consInv_src hd hB.2.1 (hsrc k (by simp) i h) hc)

/-- Seeding source keys never touches a vertex that has in-edges. -/
theorem foldSet_nonsource_fix {g : SGraph} {w : StatusKey → Status}
    (keys : List StatusKey)
    (hsrc : ∀ k ∈ keys, ∀ i, alGet g.order k = some i → g.in_edges_list.getD i [] = []) :
    ∀ (s : SMap) (j : Nat), g.in_edges_list.getD j [] ≠ [] →
      statusAt (foldSet g w keys s) j = statusAt s j := by
  induction keys with
  | nil => exact fun s j _ => rfl
  | cons k ks ih =>
    intro s j hj
    rw [foldSet_cons]
    cases h : alGet g.order k with
    | none =>
      rw [setStatus_none h]
      exact ih (fun k2 hk2 => hsrc k2 (List.mem_cons_of_mem _ hk2)) s j hj
    | some i =>
      rw [setStatus_some h,
        ih (fun k2 hk2 => hsrc k2 (List.mem_cons_of_mem _ hk2)) _ j hj]
      have hji : j ≠ i := fun hh => hj (hh ▸ hsrc k (by simp) i h)
      exact setStatusIdx_statusAt_ne hji

/-- Two parallel seeding folds with pointwise comparable write values keep
pointwise comparable states. -/
theorem foldSet_mono {g : SGraph} {w w2 : StatusKey → Status} :
    ∀ (keys : List StatusKey) (s t : SMap),
      s.current_status.length = g.order_list.length →
      t.current_status.length = g.order_list.length →
      (∀ k ∈ keys, statusLe (w k) (w2 k) = true) →
      (∀ x, statusLe (statusAt s x) (statusAt t x) = true) →
      ∀ x, statusLe (statusAt (foldSet g w keys s) x)
        (statusAt (foldSet g w2 keys t) x) = true := by
  intro keys
  induction keys with
  | nil =>
    intro s t _ _ _ hle x
    exact hle x
  | cons k ks ih =>
    intro s t hls hlt hw hle x
    rw [foldSet_cons, foldSet_cons]
    refine ih _ _ (by rw [setStatus_length, hls]) (by rw [setStatus_length, hlt])
      (fun k2 hk2 => hw k2 (List.mem_cons_of_mem _ hk2)) ?_ x
    intro y
    cases h : alGet g.order k with
    | none =>
      rw [setStatus_none h, setStatus_none h]
      exact hle y
    | some i =>
      rw [setStatus_some h, setStatus_some h]
      by_cases hin : i < g.order_list.length
      · rw [setStatusIdx_statusAt (by omega), setStatusIdx_statusAt (by omega)]
        by_cases hyi : y = i
        · rw [if_pos hyi, if_pos hyi]
          exact hw k (by simp)
        · rw [if_neg hyi, if_neg hyi]
          exact hle y
      · rw [setStatusIdx_statusAt_oob (by omega) y, setStatusIdx_statusAt_oob (by omega) y]
        exact hle y

theorem statusLe_refl (a : Status) : statusLe a a = true := by
  simp [statusLe]

/-- The all-unreachable state `IvyStatusMap.__init__` starts from. -/
def baseMap (g : SGraph) : SMap :=
  ⟨List.replicate g.order_list.length .unreachable, List.replicate g.order_list.length false,
   [], List.replicate g.order_list.length false, []⟩

theorem baseMap_statusAt (g : SGraph) (j : Nat) : statusAt (baseMap g) j = .unreachable := by
  show (List.replicate g.order_list.length Status.unreachable).getD j .unreachable = _
  rw [getD_replicate_self]

theorem baseMap_BInv (g : SGraph) : BInv g (baseMap g) := by
  refine ⟨by simp [baseMap], ?_, ?_, rfl⟩
  · intro x hx
    rw [show (baseMap g).dirty = List.replicate g.order_list.length false from rfl,
      getD_replicate_self] at hx
    exact Bool.noConfusion hx
  · intro j hj
    simp [baseMap] at hj

theorem baseMap_consInv (g : SGraph) : consInv g (baseMap g) := by
  intro i hins
  right
  rw [baseMap_statusAt, combAt_unr (fun j _ => baseMap_statusAt g j) hins]

theorem initMap_as_foldSet (g : SGraph) :
    initMap g = foldSet g (fun _ => .pending) g.tasks
      (foldSet g (fun _ => .pass) g.non_entity_sources (baseMap g)) := rfl

theorem setTaskStatuses_as_foldSet (g : SGraph) (sigma : StatusKey → Status) (s : SMap) :
    setTaskStatuses g sigma s = foldSet g sigma g.tasks s := rfl

theorem initMap_length (g : SGraph) :
    (initMap g).current_status.length = g.order_list.length := by
  rw [initMap_as_foldSet, foldSet_length, foldSet_length]
  simp [baseMap]

/-- The seeded start state satisfies the basic and fixpoint invariants. -/
theorem init_BInv_consInv {g : SGraph} (hwf : wfCheck g = true) (hd : dualCheck g = true)
    (hnc : noCross g = true) (sigma : StatusKey → Status) :
    BInv g (setTaskStatuses g sigma (initMap g)) ∧
    consInv g (setTaskStatuses g sigma (initMap g)) := by
  have h1 := foldSet_consInv (w := fun _ => Status.pass) hwf hd hnc g.non_entity_sources
    (fun k hk i ha => dual_nes_src hd hk ha) (baseMap g) (baseMap_BInv g) (baseMap_consInv g)
  have h2 := foldSet_consInv (w := fun _ => Status.pending) hwf hd hnc g.tasks
    (fun k hk i ha => dual_tasks_src hd hk ha) _ h1.1 h1.2
  have h3 := foldSet_consInv (w := sigma) hwf hd hnc g.tasks
    (fun k hk i ha => dual_tasks_src hd hk ha) _ h2.1 h2.2
  rw [setTaskStatuses_as_foldSet, initMap_as_foldSet]
  exact h3

/-- At a vertex with in-edges, the seeded start state is still
`unreachable`: initialization only writes sources. -/
theorem init_nonsource_unr {g : SGraph} (hd : dualCheck g = true)
    (sigma : StatusKey → Status) {x : Nat} (hx : g.in_edges_list.getD x [] ≠ []) :
    statusAt (setTaskStatuses g sigma (initMap g)) x = .unreachable := by
  rw [setTaskStatuses_as_foldSet, initMap_as_foldSet,
    foldSet_nonsource_fix g.tasks (fun k hk i ha => dual_tasks_src hd hk ha) _ x hx,
    foldSet_nonsource_fix g.tasks (fun k hk i ha => dual_tasks_src hd hk ha) _ x hx,
    foldSet_nonsource_fix g.non_entity_sources (fun k hk i ha => dual_nes_src hd hk ha) _ x hx,
    baseMap_statusAt]

/-- The two seeded start states compare pointwise when the task valuations
do. -/
theorem init_mono {g : SGraph} {sigma sigma' : StatusKey → Status}
    (hmono : ∀ k ∈ g.tasks, statusLe (sigma k) (sigma' k) = true) (x : Nat) :
    statusLe (statusAt (setTaskStatuses g sigma (initMap g)) x)
      (statusAt (setTaskStatuses g sigma' (initMap g)) x) = true := by
  rw [setTaskStatuses_as_foldSet, setTaskStatuses_as_foldSet]
  exact foldSet_mono g.tasks (initMap g) (initMap g) (initMap_length g) (initMap_length g)
    hmono (fun y => statusLe_refl _) x

/-- C1.  Monotonicity of status propagation, amended to cross-free graphs:
on a wellformed status graph with no entity/cross pair, for any two task
valuations with sigma <= sigma' pointwise on the task vertices, if the run
seeded with sigma' drains its dirty queue, then every vertex of the map the
sigma-run reaches (whether or not that run completes) lies at or below the
sigma'-run's final value, in the status order.  The unamended claim, over
all graphs, is refuted by the cross-vertex counterexample above. -/
theorem c1_monotonicity_amended
    (g : SGraph) (sigma sigma' : StatusKey → Status) (fo fi fo' fi' : Nat)
    (hwf : wfCheck g = true) (hd : dualCheck g = true) (hnc : noCross g = true)
    (hmono : ∀ k ∈ g.tasks, statusLe (sigma k) (sigma' k) = true)
    (hdone : (iterate g fo' fi' (setTaskStatuses g sigma' (initMap g))).dirty_queue = []) :
    ∀ i, statusLe
      (statusAt (iterate g fo fi (setTaskStatuses g sigma (initMap g))) i)
      (statusAt (iterate g fo' fi' (setTaskStatuses g sigma' (initMap g))) i) = true := by
  have hinit' := init_BInv_consInv hwf hd hnc sigma'
  have hM : MInv g (statusAt (setTaskStatuses g sigma' (initMap g)))
      (iterate g fo' fi' (setTaskStatuses g sigma' (initMap g))) :=
    iterate_MInv hwf hd hnc fo' fi' _ ⟨hinit'.1, hinit'.2, fun j _ => rfl⟩
  have hconsF : ∀ i, g.in_edges_list.getD i [] ≠ [] →
      statusAt (iterate g fo' fi' (setTaskStatuses g sigma' (initMap g))) i =
      combAt g (statusAt (iterate g fo' fi' (setTaskStatuses g sigma' (initMap g)))) i := by
    intro i hi
    rcases hM.2.1 i hi with hq | hc
    · rw [hdone] at hq
      simp at hq
    · exact hc
  have hles0 : leMapF (setTaskStatuses g sigma (initMap g))
      (statusAt (iterate g fo' fi' (setTaskStatuses g sigma' (initMap g)))) := by
    intro x
    by_cases hx : g.in_edges_list.getD x [] = []
    · rw [hM.2.2 x hx]
      exact init_mono hmono x
    · rw [init_nonsource_unr hd sigma hx]
      exact statusLe_bot _
  have hP := iterate_PInv hwf hd hnc hconsF fo fi (setTaskStatuses g sigma (initMap g))
    ⟨(init_BInv_consInv hwf hd hnc sigma).1, hles0⟩
  exact hP.2

/-- Witness data for the amended monotonicity theorem: proof `P` solves and
asserts invariant `A` locally only, so the graph has no cross vertex; the
lower valuation fails `task(P)`, the higher leaves it pending. -/
def ex2Entities : List IvyEntity :=
  [.proofE ⟨["P"], true, [], [], [⟨["A"], true⟩], []⟩, .invariantE ["A"] false]

/-- The cross-free status graph built from the witness entities. -/
def ex2G : SGraph :=
  (buildGraph 100 ex2Entities).getD ⟨[], [], [], [], [], [], [], [], []⟩

/-- The lower witness valuation: `task(P)` fails. -/
def ex2SigmaLow : StatusKey → Status :=
  fun k => if k.name = ["P"] then .fail else .pending

/-- The higher witness valuation: everything pending. -/
def ex2SigmaHigh : StatusKey → Status := fun _ => .pending

/-- C4.  `find_sccs` mishandles successors that are not keys of the
adjacency.  On `{1: [2, 4, 3], 3: [2]}` it returns `[{2}, {4}, {3, 1}]`:
the emitted set `{3, 1}` is not strongly connected (the successor lists
recorded below show node 3 reaches only node 2, never node 1), and the
singleton sets `{2}` and `{4}` are not subsets of `keys(A) = {1, 3}`, so the
returned list neither partitions the keys nor consists of strongly connected
components.  The root cause: a closed component's nodes get the sentinel
low-value `len(nodes)`, but DFS numbers are allocated as `len(low)`, which
also counts visited non-key successors and can exceed `len(nodes)`; a node
whose number exceeds an already-closed successor's sentinel fails the
`num == val` root test and leaks onto the stack, to be swept into the next
closed component.  `{1: [2]}` shows the plain partition violation. -/
theorem c4_sccs_bug :
    find_sccs 30 [((1 : Nat), [2, 4, 3]), (3, [2])] = some [[2], [4], [3, 1]] ∧
    ([((1 : Nat), [2, 4, 3]), (3, [2])].map Prod.fst = [1, 3]) ∧
    alGetD [((1 : Nat), [2, 4, 3]), (3, [2])] 3 [] = [2] ∧
    alGetD [((1 : Nat), [2, 4, 3]), (3, [2])] 2 [] = [] ∧
    alGetD [((1 : Nat), [2, 4, 3]), (3, [2])] 4 [] = [] ∧
    find_sccs 10 [((1 : Nat), [2])] = some [[2], [1]] := by
  decide

theorem c1_monotonicity_amended_witness :
    wfCheck ex2G = true ∧ dualCheck ex2G = true ∧ noCross ex2G = true ∧
    statusLe
      (statusAt (iterate ex2G 10 100 (setTaskStatuses ex2G ex2SigmaLow (initMap ex2G))) 2)
      (statusAt (iterate ex2G 10 100 (setTaskStatuses ex2G ex2SigmaHigh (initMap ex2G))) 2) =
      true :=
  ⟨by decide, by decide, by decide,
    c1_monotonicity_amended ex2G ex2SigmaLow ex2SigmaHigh 10 100 10 100 (by decide)
      (by decide) (by decide) (by decide) (by decide) 2⟩

end Ivy
